import Mathlib

/-!
Verification of the `dice_average` dice-notation library.

The Python source (src/dice_average/) is shallowly embedded here:

* `models.py`   → `Die`, `DiceGroup`, `DiceExpression`, `RollResult`,
                  `RollSession` (timestamps omitted; they are wall-clock data
                  irrelevant to every claim);
* `parser.py`   → `DiceParser.parse` with a faithful model of the two regex
                  scans (`(\d*)d(\d+)` and `([+-])\s*(\d+)(?!d)`, both
                  case-insensitive, including the backtracking behaviour of
                  the `(?!d)` negative lookahead);
* `statistics.py` → `single_die_distribution`, `convolve`,
                  `dice_group_distribution`, `calculate_distribution`,
                  `calculate_variance`, `calculate_skewness`,
                  `calculate_kurtosis`, `get_extended_statistics`,
                  `analyze_session`;
* `roller.py`   → `DiceRoller` and its operations.

Python `dict[int, float]` values are modelled as insertion-ordered
association lists (`List (Int × ℚ)`), exactly mirroring dict semantics
(update-in-place keeps position, new keys are appended).  Probabilities are
modelled by exact rationals; the Python code computes with IEEE doubles, so
every numeric claim is read over the exact field the algorithms implement.
-/

namespace DiceAverage

/-! ## Data model (src/dice_average/models.py) -/

/-- A single die (`models.Die`); pydantic enforces `sides > 0`, which is
carried separately as a well-formedness predicate. -/
structure Die where
  sides : Nat
deriving DecidableEq

/-- Minimum value of a die (`Die.min_value`). -/
def Die.min_value (_ : Die) : Int := 1

/-- Maximum value of a die (`Die.max_value`). -/
def Die.max_value (d : Die) : Int := d.sides

/-- Average value of a die (`Die.average_value`, `(min + max) / 2`). -/
def Die.average_value (d : Die) : ℚ := (1 + (d.sides : ℚ)) / 2

/-- A group of identical dice (`models.DiceGroup`). -/
structure DiceGroup where
  count : Nat
  die : Die
deriving DecidableEq

/-- Group minimum (`DiceGroup.min_value = count * die.min_value`). -/
def DiceGroup.min_value (g : DiceGroup) : Int := g.count * g.die.min_value

/-- Group maximum (`DiceGroup.max_value = count * die.max_value`). -/
def DiceGroup.max_value (g : DiceGroup) : Int := g.count * g.die.max_value

/-- Group average (`DiceGroup.average_value = count * die.average_value`). -/
def DiceGroup.average_value (g : DiceGroup) : ℚ := g.count * g.die.average_value

/-- A full dice expression (`models.DiceExpression`). -/
structure DiceExpression where
  dice_groups : List DiceGroup
  modifier : Int
deriving DecidableEq

/-- Expression minimum (`DiceExpression.min_value`). -/
def DiceExpression.min_value (e : DiceExpression) : Int :=
  (e.dice_groups.map DiceGroup.min_value).sum + e.modifier

/-- Expression maximum (`DiceExpression.max_value`). -/
def DiceExpression.max_value (e : DiceExpression) : Int :=
  (e.dice_groups.map DiceGroup.max_value).sum + e.modifier

/-- Expression average (`DiceExpression.average_value`). -/
def DiceExpression.average_value (e : DiceExpression) : ℚ :=
  (e.dice_groups.map DiceGroup.average_value).sum + e.modifier

/-- Pydantic's `Field(gt=0)` constraints on `Die.sides` and
`DiceGroup.count`, as a predicate on expressions. -/
def DiceExpression.WF (e : DiceExpression) : Prop :=
  ∀ g ∈ e.dice_groups, 0 < g.count ∧ 0 < g.die.sides

instance (e : DiceExpression) : Decidable e.WF := by
  unfold DiceExpression.WF; infer_instance

/-- Canonical rendering (`DiceExpression.__str__`): groups joined by
" + " as "NdS", then " + M" / " - M" for a nonzero modifier. -/
def DiceExpression.toCanonical (e : DiceExpression) : String :=
  let parts := e.dice_groups.map fun g => toString g.count ++ "d" ++ toString g.die.sides
  let result := String.intercalate " + " parts
  if e.modifier > 0 then result ++ " + " ++ toString e.modifier
  else if e.modifier < 0 then result ++ " - " ++ toString e.modifier.natAbs
  else result

/-! ## Parser (src/dice_average/parser.py)

The two regex scans are embedded by fuel-bounded left-to-right matchers.
For `DICE_PATTERN = (\d*)d(\d+)` a match attempt at a position succeeds
exactly when the maximal digit run from that position is followed by
`d`/`D` and then at least one digit (shortening the greedy `\d*` can never
help, because the character after a shortened run is a digit, not `d`).
For `MODIFIER_PATTERN = ([+-])\s+?(\d+)(?!d)` (whitespace having been
removed beforehand), a match attempt at a sign succeeds on the maximal
digit run `r` after the sign when the next character is not `d`/`D`;
when it is `d`/`D`, the greedy `\d+` backtracks one digit, which succeeds
exactly when `r` has at least two digits (the lookahead then sees a digit)
and yields `r` without its last digit.  On failure the scanner advances one
position; on success it resumes at the end of the match. -/

/-- Errors raised by `DiceParser.parse` (`parser.DiceParseError`), with the
data each message carries. -/
inductive DiceParseError where
  | emptyExpression : DiceParseError
  | invalidChars (chars : List Char) : DiceParseError
  | negativeDiceCount : DiceParseError
  | noDiceFound : DiceParseError
  | nonPositiveCount (n : Nat) : DiceParseError
  | nonPositiveSides (n : Nat) : DiceParseError
deriving DecidableEq

/-- Python `str.isspace` / `\s` membership for the characters relevant
here (the CPython whitespace set). -/
def isPySpace (c : Char) : Bool :=
  c.toNat ∈ [9, 10, 11, 12, 13, 28, 29, 30, 31, 32, 0x85, 0xa0, 0x1680,
    0x2000, 0x2001, 0x2002, 0x2003, 0x2004, 0x2005, 0x2006, 0x2007, 0x2008,
    0x2009, 0x200a, 0x2028, 0x2029, 0x202f, 0x205f, 0x3000]

/-- Characters accepted by the validity check in `DiceParser.parse`:
`set(string.digits + 'dD+- ')`. -/
def isValidChar (c : Char) : Bool :=
  c.isDigit || c = 'd' || c = 'D' || c = '+' || c = '-' || c = ' '

/-- The `d`/`D` separator test (the regexes are case-insensitive). -/
def isSepD (c : Char) : Bool := c = 'd' || c = 'D'

/-- Python `int` of a nonempty decimal digit string. -/
def natOfDigits (cs : List Char) : Nat :=
  cs.foldl (fun n c => 10 * n + (c.toNat - 48)) 0

/-- One match attempt of `re.search(r'-\d*[dD]\d+', s)` at the head of the
list: a minus sign, the maximal digit run, a `d`/`D`, then a digit. -/
def negDiceAt (l : List Char) : Bool :=
  match l with
  | '-' :: rest =>
    match rest.dropWhile Char.isDigit with
    | d :: x :: _ => isSepD d && x.isDigit
    | _ => false
  | _ => false

/-- `re.search(r'-\d*[dD]\d+', s)`: some position matches. -/
def hasNegativeDice (l : List Char) : Bool :=
  l.tails.any negDiceAt

/-- `DICE_PATTERN.findall`, fuel-bounded (fuel ≥ list length suffices). -/
def findDiceAux : Nat → List Char → List (List Char × List Char)
  | 0, _ => []
  | _, [] => []
  | fuel + 1, c :: rest =>
    let l := c :: rest
    match l.dropWhile Char.isDigit with
    | d :: l2 =>
      if isSepD d then
        let sides := l2.takeWhile Char.isDigit
        if sides.isEmpty then findDiceAux fuel rest
        else (l.takeWhile Char.isDigit, sides) :: findDiceAux fuel (l2.dropWhile Char.isDigit)
      else findDiceAux fuel rest
    | [] => []

/-- All matches of `DICE_PATTERN = (\d*)d(\d+)` (count string, sides string). -/
def findDice (l : List Char) : List (List Char × List Char) :=
  findDiceAux l.length l

/-- `MODIFIER_PATTERN.findall`, fuel-bounded: sign and matched digit string,
including the lookahead-driven backtracking described above. -/
def findModsAux : Nat → List Char → List (Char × List Char)
  | 0, _ => []
  | _, [] => []
  | fuel + 1, c :: rest =>
    if c = '+' || c = '-' then
      let r := rest.takeWhile Char.isDigit
      if r.isEmpty then findModsAux fuel rest
      else
        match rest.dropWhile Char.isDigit with
        | d :: _ =>
          if isSepD d then
            if 2 ≤ r.length then (c, r.dropLast) :: findModsAux fuel (rest.drop (r.length - 1))
            else findModsAux fuel rest
          else (c, r) :: findModsAux fuel (rest.dropWhile Char.isDigit)
        | [] => [(c, r)]
    else findModsAux fuel rest

/-- All matches of `MODIFIER_PATTERN = ([+-])\s+?(\d+)(?!d)`. -/
def findMods (l : List Char) : List (Char × List Char) :=
  findModsAux l.length l

/-- `DiceParser._parse_modifier`: sum the signed matches algebraically. -/
def parse_modifier (l : List Char) : Int :=
  (findMods l).foldl
    (fun m sv => if sv.1 = '+' then m + natOfDigits sv.2 else m - natOfDigits sv.2) 0

/-- Insertion of a character into a sorted list (ascending code points). -/
def insertChar (c : Char) : List Char → List Char
  | [] => [c]
  | x :: xs => if c.toNat ≤ x.toNat then c :: x :: xs else x :: insertChar c xs

/-- Python `sorted` on characters (ascending code points). -/
def sortChars (l : List Char) : List Char :=
  l.foldr insertChar []

/-- The dice-group construction loop of `DiceParser.parse`: an omitted
count defaults to 1; zero count or sides raises at the first bad token. -/
def parseGroups : List (List Char × List Char) → Except DiceParseError (List DiceGroup)
  | [] => .ok []
  | (cs, ss) :: rest =>
    let count : Nat := if cs.isEmpty then 1 else natOfDigits cs
    let sides : Nat := natOfDigits ss
    if count = 0 then .error (.nonPositiveCount count)
    else if sides = 0 then .error (.nonPositiveSides sides)
    else do
      let tail ← parseGroups rest
      pure (⟨count, ⟨sides⟩⟩ :: tail)

/-- `DiceParser.parse`: empty check, whitespace removal, invalid-character
check (message characters deduplicated by `set` and sorted), negative-count
check, dice scan, modifier scan. -/
def parse (text : String) : Except DiceParseError DiceExpression :=
  let cs := text.data
  if cs.isEmpty || cs.all isPySpace then .error .emptyExpression
  else
    let s := cs.filter fun c => !isPySpace c
    let invalid := s.filter fun c => !isValidChar c
    if !invalid.isEmpty then .error (.invalidChars (sortChars invalid.dedup))
    else if hasNegativeDice s then .error .negativeDiceCount
    else
      let ms := findDice s
      if ms.isEmpty then .error .noDiceFound
      else do
        let gs ← parseGroups ms
        pure ⟨gs, parse_modifier s⟩

/-! ## Probability engine (src/dice_average/statistics.py)

`dict[int, float]` is modelled as an insertion-ordered association list. -/

/-- An insertion-ordered Python dict from totals to probabilities. -/
abbrev PDist := List (Int × ℚ)

/-- Python `d.get(k, 0.0)`. -/
def dGet : PDist → Int → ℚ
  | [], _ => 0
  | e :: rest, k => if e.1 = k then e.2 else dGet rest k

/-- Python `k in d`. -/
def dHasKey : PDist → Int → Bool
  | [], _ => false
  | e :: rest, k => e.1 = k || dHasKey rest k

/-- Python `d[k] = v`: update in place if present, else append. -/
def dSet (d : PDist) (k : Int) (v : ℚ) : PDist :=
  if dHasKey d k then d.map fun e => if e.1 = k then (k, v) else e
  else d ++ [(k, v)]

/-- Python `d.keys()` in insertion order. -/
def dKeys (d : PDist) : List Int := d.map Prod.fst

/-- The keys of a distribution as a finite set. -/
def keyFinset (d : PDist) : Finset Int := (dKeys d).toFinset

/-- `DiceStatistics._single_die_distribution`: keys `1..sides`, each with
probability `1/sides`. -/
def single_die_distribution (sides : Nat) : PDist :=
  (List.range sides).map fun i : Nat => ((i : Int) + 1, 1 / (sides : ℚ))

/-- `DiceStatistics._convolve_distributions`: for every pair of entries,
accumulate `prob1 * prob2` onto key `value1 + value2`. -/
def convolve (d1 d2 : PDist) : PDist :=
  d1.foldl
    (fun acc e1 =>
      d2.foldl
        (fun acc2 e2 => dSet acc2 (e1.1 + e2.1) (dGet acc2 (e1.1 + e2.1) + e1.2 * e2.2))
        acc)
    []

/-- `DiceStatistics._dice_group_distribution`: a single die directly, else
the count-fold iterated convolution of the single-die distribution. -/
def dice_group_distribution (g : DiceGroup) : PDist :=
  if g.count = 1 then single_die_distribution g.die.sides
  else
    (List.range (g.count - 1)).foldl
      (fun acc _ => convolve acc (single_die_distribution g.die.sides))
      (single_die_distribution g.die.sides)

/-- `DiceStatistics.calculate_distribution`: convolve the group
distributions in order, then translate every key by the modifier (the code
skips the translation pass when the modifier is zero); with no groups the
result is the Dirac dict on the modifier. -/
def calculate_distribution (e : DiceExpression) : PDist :=
  match e.dice_groups with
  | [] => [(e.modifier, 1)]
  | g :: gs =>
    let base := gs.foldl (fun acc g2 => convolve acc (dice_group_distribution g2))
      (dice_group_distribution g)
    if e.modifier ≠ 0 then base.map fun p => (p.1 + e.modifier, p.2) else base

/-- `DiceStatistics.calculate_variance`: `Σ p(v) * (v - mean)^2` over the
dict entries. -/
def calculate_variance (d : PDist) (mean : ℚ) : ℚ :=
  (d.map fun e => e.2 * ((e.1 : ℚ) - mean) ^ 2).sum

/-- `DiceStatistics.calculate_skewness`: `0` when the standard deviation is
zero, else `Σ p(v) * ((v - mean) / std_dev)^3`. -/
def calculate_skewness (d : PDist) (mean std_dev : ℚ) : ℚ :=
  if std_dev = 0 then 0
  else (d.map fun e => e.2 * (((e.1 : ℚ) - mean) / std_dev) ^ 3).sum

/-- `DiceStatistics.calculate_kurtosis`: `0` when the standard deviation is
zero, else `Σ p(v) * ((v - mean) / std_dev)^4 - 3` (excess convention). -/
def calculate_kurtosis (d : PDist) (mean std_dev : ℚ) : ℚ :=
  if std_dev = 0 then 0
  else (d.map fun e => e.2 * (((e.1 : ℚ) - mean) / std_dev) ^ 4).sum - 3

/-- The fields of the dict returned by
`DiceStatistics.get_extended_statistics` that the claims reference.  The
float `math.sqrt` is modelled by `Real.sqrt`, hence the two real-valued
fields (the remaining fields of the Python dict — median, mode, skewness,
kurtosis, percentiles — are not referenced by any claim and are omitted;
the skewness/kurtosis functions themselves are embedded above). -/
structure ExtendedStatistics where
  mean : ℚ
  variance : ℚ
  standard_deviation : ℝ
  coefficient_of_variation : ℝ
  min_value : Int
  max_value : Int
  range : Int

/-- `DiceStatistics.get_extended_statistics`: mean is the closed-form
average, std dev is the square root of the variance of the computed
distribution, and the coefficient of variation is `std_dev / mean` guarded
by `mean != 0` (else `0.0`). -/
noncomputable def get_extended_statistics (e : DiceExpression) : ExtendedStatistics :=
  let distribution := calculate_distribution e
  let mean := e.average_value
  let variance := calculate_variance distribution mean
  let std_dev : ℝ := Real.sqrt (variance : ℝ)
  { mean := mean
    variance := variance
    standard_deviation := std_dev
    coefficient_of_variation := if mean ≠ 0 then std_dev / (mean : ℝ) else 0
    min_value := e.min_value
    max_value := e.max_value
    range := e.max_value - e.min_value }

/-! ### IEEE binary64 model of the convolution loop

`statistics.py` computes with Python floats (IEEE binary64, round to
nearest, ties to even).  Key sets and the algebraic structure of the
distributions are insensitive to this, but bit-level per-key equality is
not, so the float arithmetic of the convolution loop is also modelled
exactly, for the nonnegative normal range it exercises: a float is a
canonical dyadic `m · 2^e` (`m` odd, or zero), and each `*`, `+` and
`1.0 / sides` of the source rounds its exact result to 53 significant
bits, ties to even. -/

/-- A nonnegative binary64 value in canonical dyadic form `m · 2^e`
(`m` odd, or zero with `e = 0`). -/
structure Fl where
  m : Int
  e : Int
deriving DecidableEq

/-- The rational value denoted by a dyadic float. -/
def Fl.toRat (a : Fl) : ℚ := (a.m : ℚ) * (2 : ℚ) ^ a.e

/-- Strip factors of two to reach the canonical odd-mantissa form
(fuel-bounded; fuel 200 covers every exponent this file reaches). -/
def stripTwos : Nat → Int → Int → Fl
  | 0, m, e => ⟨m, e⟩
  | fuel + 1, m, e =>
    if m ≠ 0 ∧ m % 2 = 0 then stripTwos fuel (m / 2) (e + 1) else ⟨m, e⟩

/-- How many binary digits of `m` exceed the 53-bit mantissa. -/
def excessBits : Nat → Int → Nat
  | 0, _ => 0
  | fuel + 1, m => if m < 2 ^ 53 then 0 else excessBits fuel (m / 2) + 1

/-- Round the exact value `m · 2^e` (`m ≥ 0`) to 53 significant bits,
ties to even; `sticky` records a nonzero exact tail strictly below
`m · 2^e` (produced by division), which turns an apparent tie into a
round-up. -/
def roundAt (m : Int) (e : Int) (sticky : Bool) : Fl :=
  if m = 0 then ⟨0, 0⟩
  else
    let s := excessBits 200 m
    if s = 0 then stripTwos 200 m e
    else
      let q := m / 2 ^ s
      let r := m % 2 ^ s
      let h := (2 ^ s : Int) / 2
      let q2 :=
        if h < r then q + 1
        else if r < h then q
        else if sticky then q + 1
        else q + q % 2
      stripTwos 200 q2 (e + s)

/-- Binary64 multiplication: exact dyadic product, then one rounding. -/
def flMul (a b : Fl) : Fl := roundAt (a.m * b.m) (a.e + b.e) false

/-- Binary64 addition: exact dyadic sum (exponents aligned), then one
rounding; zero is the identity as in Python's `0.0 + x`. -/
def flAdd (a b : Fl) : Fl :=
  if a.m = 0 then b
  else if b.m = 0 then a
  else if b.e ≤ a.e then roundAt (a.m * 2 ^ (a.e - b.e).toNat + b.m) b.e false
  else roundAt (a.m + b.m * 2 ^ (b.e - a.e).toNat) a.e false

/-- Binary64 `1.0 / sides`: 120 fraction bits of the quotient plus a
sticky bit for the remainder, then one rounding. -/
def flOneDiv (sides : Nat) : Fl :=
  if sides = 0 then ⟨0, 0⟩
  else roundAt ((2 ^ 120 : Int) / sides) (-120) (decide ((2 ^ 120 : Int) % sides ≠ 0))

/-- The float-valued Python dict from totals to probabilities. -/
abbrev PDistF := List (Int × Fl)

/-- Python `d.get(k, 0.0)` on the float dict. -/
def dGetF : PDistF → Int → Fl
  | [], _ => ⟨0, 0⟩
  | p :: rest, k => if p.1 = k then p.2 else dGetF rest k

/-- Python `k in d` on the float dict. -/
def dHasKeyF : PDistF → Int → Bool
  | [], _ => false
  | p :: rest, k => p.1 = k || dHasKeyF rest k

/-- Python `d[k] = v` on the float dict. -/
def dSetF (d : PDistF) (k : Int) (v : Fl) : PDistF :=
  if dHasKeyF d k then d.map fun p => if p.1 = k then (k, v) else p
  else d ++ [(k, v)]

/-- `DiceStatistics._single_die_distribution` in binary64. -/
def single_die_distributionF (sides : Nat) : PDistF :=
  (List.range sides).map fun i : Nat => ((i : Int) + 1, flOneDiv sides)

/-- `DiceStatistics._convolve_distributions` in binary64: one rounded
multiplication and one rounded addition per entry pair, exactly as
`result[total] = result.get(total, 0.0) + prob1 * prob2` performs. -/
def convolveF (d1 d2 : PDistF) : PDistF :=
  d1.foldl
    (fun acc e1 =>
      d2.foldl
        (fun acc2 e2 =>
          dSetF acc2 (e1.1 + e2.1) (flAdd (dGetF acc2 (e1.1 + e2.1)) (flMul e1.2 e2.2)))
        acc)
    []

/-- `DiceStatistics._dice_group_distribution` in binary64. -/
def dice_group_distributionF (g : DiceGroup) : PDistF :=
  if g.count = 1 then single_die_distributionF g.die.sides
  else
    (List.range (g.count - 1)).foldl
      (fun acc _ => convolveF acc (single_die_distributionF g.die.sides))
      (single_die_distributionF g.die.sides)

/-- `DiceStatistics.calculate_distribution` in binary64. -/
def calculate_distributionF (e : DiceExpression) : PDistF :=
  match e.dice_groups with
  | [] => [(e.modifier, ⟨1, 0⟩)]
  | g :: gs =>
    let base := gs.foldl (fun acc g2 => convolveF acc (dice_group_distributionF g2))
      (dice_group_distributionF g)
    if e.modifier ≠ 0 then base.map fun p => (p.1 + e.modifier, p.2) else base

/-! ## Roller (src/dice_average/roller.py) -/

/-- Modelled from the spec: the source instantiates Python's
`random.Random(seed)` (standard library, not part of the repository) as a
seedable deterministic pseudo-random generator; it is modelled as a 64-bit
linear congruential state machine.  Only determinism for a fixed seed and
the value range of `randint` matter to the claims, per the spec's "seedable
pseudo-random generator (re-seeding resets state)". -/
structure PyRandom where
  state : Nat
deriving DecidableEq

/-- Modelled from the spec: `random.Random(seed)` — the seed fully
determines the initial generator state. -/
def PyRandom.ofSeed (seed : Int) : PyRandom :=
  ⟨(seed.emod (2 ^ 64)).toNat⟩

/-- Modelled from the spec: one generator step. -/
def PyRandom.next (g : PyRandom) : Nat × PyRandom :=
  let s := (6364136223846793005 * g.state + 1442695040888963407) % 2 ^ 64
  (s, ⟨s⟩)

/-- Modelled from the spec: `Random.randint(lo, hi)`, a draw in
`[lo, hi]`. -/
def PyRandom.randint (g : PyRandom) (lo hi : Int) : Int × PyRandom :=
  let (v, g2) := g.next
  (lo + ((v % (hi - lo + 1).toNat : Nat) : Int), g2)

/-- `models.RollResult` (the `timestamp` field, wall-clock data set by
`datetime.now`, is omitted: the claims quantify over per-die values and
totals only). -/
structure RollResult where
  expression : DiceExpression
  individual_rolls : List (List Int)
  modifier : Int
  total : Int
deriving DecidableEq

/-- `roller.DiceRoller`: a stored seed and the generator instance. -/
structure DiceRoller where
  seed : Int
  random : PyRandom
deriving DecidableEq

/-- `DiceRoller.__init__(seed)`. -/
def DiceRoller.init (seed : Int) : DiceRoller :=
  ⟨seed, PyRandom.ofSeed seed⟩

/-- The inner loop of `roll_single`: draw `count` values in
`[1, sides]`. -/
def rollGroup : PyRandom → Nat → Nat → List Int × PyRandom
  | g, 0, _ => ([], g)
  | g, n + 1, sides =>
    let (v, g2) := g.randint 1 sides
    let (vs, g3) := rollGroup g2 n sides
    (v :: vs, g3)

/-- `DiceRoller.roll_single`: per-group draws, total = sum of all draws
plus the modifier; the generator state advances. -/
def DiceRoller.roll_single (r : DiceRoller) (e : DiceExpression) : RollResult × DiceRoller :=
  let step := e.dice_groups.foldl
    (fun (acc : List (List Int) × PyRandom) g =>
      let (vs, g2) := rollGroup acc.2 g.count g.die.sides
      (acc.1 ++ [vs], g2))
    ([], r.random)
  let total := (step.1.map List.sum).sum + e.modifier
  (⟨e, step.1, e.modifier, total⟩, ⟨r.seed, step.2⟩)

/-- `n` consecutive single rolls threading the shared generator. -/
def rollN : DiceRoller → DiceExpression → Nat → List RollResult × DiceRoller
  | r, _, 0 => ([], r)
  | r, e, n + 1 =>
    let (x, r2) := r.roll_single e
    let (xs, r3) := rollN r2 e n
    (x :: xs, r3)

/-- Errors raised by the roller (`ValueError` in the source). -/
inductive RollError where
  | nonPositiveIterations : RollError
  | impossibleTarget : RollError
  | targetNotReached : RollError
deriving DecidableEq

/-- `DiceRoller.roll_multiple`: rejects a non-positive iteration count,
else returns the list of rolls (the roller state is returned alongside,
mirroring the mutated `self.random`). -/
def DiceRoller.roll_multiple (r : DiceRoller) (e : DiceExpression) (iterations : Int) :
    Except RollError (List RollResult) × DiceRoller :=
  if iterations ≤ 0 then (.error .nonPositiveIterations, r)
  else
    let run := rollN r e iterations.toNat
    (.ok run.1, run.2)

/-- The attempt loop of `roll_with_target` (`for attempt in
range(1, max_attempts + 1)`), with the attempt counter threaded. -/
def rollTargetLoop :
    DiceRoller → DiceExpression → Int → Nat → Nat →
      Except RollError (RollResult × Nat) × DiceRoller
  | r, _, _, 0, _ => (.error .targetNotReached, r)
  | r, e, target, fuel + 1, attempt =>
    let (roll, r2) := r.roll_single e
    if roll.total = target then (.ok (roll, attempt), r2)
    else rollTargetLoop r2 e target fuel (attempt + 1)

/-- `DiceRoller.roll_with_target`: an impossible target (outside
`[min_value, max_value]`) fails before any roll, leaving the generator
untouched; otherwise roll until the target is hit or the attempts run
out. -/
def DiceRoller.roll_with_target (r : DiceRoller) (e : DiceExpression) (target : Int)
    (max_attempts : Nat) : Except RollError (RollResult × Nat) × DiceRoller :=
  if target < e.min_value || target > e.max_value then (.error .impossibleTarget, r)
  else rollTargetLoop r e target max_attempts 1

/-! ## Session analysis (src/dice_average/statistics.py, SessionAnalyzer) -/

/-- `models.RollSession`. -/
structure RollSession where
  expression : DiceExpression
  rolls : List RollResult
  seed : Option Int
deriving DecidableEq

/-- `RollSession.roll_totals`. -/
def RollSession.roll_totals (s : RollSession) : List Int :=
  s.rolls.map RollResult.total

/-- Insertion into a sorted integer list (ascending). -/
def insertInt (x : Int) : List Int → List Int
  | [] => [x]
  | y :: ys => if x ≤ y then x :: y :: ys else y :: insertInt x ys

/-- Python `sorted` on integers: the ascending reordering. -/
def sortInts (l : List Int) : List Int :=
  l.foldr insertInt []

/-- Minimum of a list as Python `min` (nonempty lists). -/
def listMin : List Int → Int
  | [] => 0
  | x :: xs => xs.foldl min x

/-- Maximum of a list as Python `max` (nonempty lists). -/
def listMax : List Int → Int
  | [] => 0
  | x :: xs => xs.foldl max x

/-- The fields of the dict returned by `SessionAnalyzer.analyze_session`
referenced by the claims (`standard_deviation`, a float square root, and
the raw `distribution` counter are omitted; every other field is kept). -/
structure SessionAnalysis where
  total_rolls : Nat
  mean : ℚ
  median : ℚ
  modes : List Int
  variance : ℚ
  min_value : Int
  max_value : Int
  range : Int
  percentiles : List (ℚ × Int)
  theoretical_mean : ℚ
  mean_deviation : ℚ
deriving DecidableEq

/-- `SessionAnalyzer.analyze_session`: empty sessions yield the empty dict
(`none` here); otherwise empirical statistics over the realized totals:
arithmetic mean, middle-of-sorted median (average of the two middle values
for even counts), `Counter`-based modes (all values of maximal frequency,
in first-occurrence order), population variance, min/max/range, and
nearest-rank percentiles at index `int(p * (N - 1))` into the sorted
totals. -/
def analyze_session (s : RollSession) : Option SessionAnalysis :=
  if s.rolls.isEmpty then none
  else
    let totals := s.roll_totals
    let n := totals.length
    let mean : ℚ := (totals.sum : ℚ) / (n : ℚ)
    let sorted := sortInts totals
    let median : ℚ :=
      if n % 2 = 0 then
        (((sorted.getD (n / 2 - 1) 0 : ℚ) + (sorted.getD (n / 2) 0 : ℚ))) / 2
      else (sorted.getD (n / 2) 0 : ℚ)
    let distinct := totals.dedup
    let mode_count := listMax (distinct.map fun v => (totals.count v : Int))
    let modes := distinct.filter fun v => (totals.count v : Int) = mode_count
    let variance : ℚ := (totals.map fun x => ((x : ℚ) - mean) ^ 2).sum / (n : ℚ)
    let percentiles : List (ℚ × Int) :=
      ([0.05, 0.25, 0.5, 0.75, 0.95] : List ℚ).map fun p =>
        (p, sorted.getD (⌊p * ((n : ℚ) - 1)⌋).toNat 0)
    some
      { total_rolls := n
        mean := mean
        median := median
        modes := modes
        variance := variance
        min_value := listMin totals
        max_value := listMax totals
        range := listMax totals - listMin totals
        percentiles := percentiles
        theoretical_mean := s.expression.average_value
        mean_deviation := |mean - s.expression.average_value| }

/-! ## Spec-side notions used by the claims -/

/-- A value is attainable for one group when it is the sum of `count` die
faces, each between 1 and `sides` (the claim's "sum of die faces"). -/
def groupAttains (g : DiceGroup) (k : Int) : Prop :=
  ∃ faces : List Int,
    faces.length = g.count ∧ (∀ f ∈ faces, 1 ≤ f ∧ f ≤ (g.die.sides : Int)) ∧ faces.sum = k

/-- Attainability for a list of groups: a sum of per-group attainable
values. -/
def attainsGroups : List DiceGroup → Int → Prop
  | [], k => k = 0
  | g :: gs, k => ∃ a b, groupAttains g a ∧ attainsGroups gs b ∧ k = a + b

/-- A total is attainable for an expression when it is a sum of die faces
over all its groups plus the modifier. -/
def attains (e : DiceExpression) (k : Int) : Prop :=
  attainsGroups e.dice_groups (k - e.modifier)

open Pointwise

/-- The meaning of a probability dict: its key set together with its
lookup function. -/
abbrev SemDist := Finset Int × (Int → ℚ)

/-- The meaning of a concrete dict. -/
def semD (d : PDist) : SemDist := (keyFinset d, dGet d)

/-- Discrete convolution on meanings: key sets add pointwise, and the
probability of `k` is the sum over the first key set of the products of
matching probabilities. -/
def sconv (A B : SemDist) : SemDist :=
  (A.1 + B.1, fun k => ∑ a ∈ A.1, A.2 a * B.2 (k - a))

/-- The Dirac meaning at 0, a unit for `sconv`. -/
def sOne : SemDist := ({0}, fun k => if k = 0 then 1 else 0)

/-- A meaning whose function vanishes off its key set. -/
def SupportedIn (A : SemDist) : Prop := ∀ a, a ∉ A.1 → A.2 a = 0

deriving instance DecidableEq for Except

/-! ## Lemmas about the dict operations -/

theorem dGet_eq_zero_of_not_mem {d : PDist} {k : Int} (h : k ∉ dKeys d) : dGet d k = 0 := by
  induction d with
  | nil => rfl
  | cons e rest ih =>
    simp only [dKeys, List.map_cons, List.mem_cons, not_or] at h
    simp only [dGet, if_neg (fun hh : e.1 = k => h.1 hh.symm)]
    exact ih h.2

theorem dHasKey_iff {d : PDist} {k : Int} : dHasKey d k = true ↔ k ∈ dKeys d := by
  induction d with
  | nil => simp [dHasKey, dKeys]
  | cons e rest ih =>
    simp only [dHasKey, Bool.or_eq_true, decide_eq_true_eq, ih, dKeys, List.map_cons,
      List.mem_cons]
    exact or_congr eq_comm Iff.rfl

theorem dKeys_dSet (d : PDist) (k : Int) (v : ℚ) :
    dKeys (dSet d k v) = if k ∈ dKeys d then dKeys d else dKeys d ++ [k] := by
  unfold dSet
  by_cases h : dHasKey d k
  · rw [if_pos h, if_pos (dHasKey_iff.mp h)]
    unfold dKeys
    rw [List.map_map]
    apply List.map_congr_left
    intro e _
    by_cases he : e.1 = k
    · simp [Function.comp_def, he]
    · simp [Function.comp_def, he]
  · rw [if_neg h, if_neg (fun hm => h (dHasKey_iff.mpr hm))]
    simp [dKeys]

theorem keyFinset_dSet (d : PDist) (k : Int) (v : ℚ) :
    keyFinset (dSet d k v) = insert k (keyFinset d) := by
  unfold keyFinset
  rw [dKeys_dSet]
  by_cases h : k ∈ dKeys d
  · rw [if_pos h, Finset.insert_eq_self.mpr (by simpa using h)]
  · rw [if_neg h]
    ext x
    simp [or_comm]

theorem nodup_dKeys_dSet {d : PDist} (k : Int) (v : ℚ) (h : (dKeys d).Nodup) :
    (dKeys (dSet d k v)).Nodup := by
  rw [dKeys_dSet]
  by_cases hm : k ∈ dKeys d
  · rwa [if_pos hm]
  · rw [if_neg hm]
    simpa [List.nodup_append] using ⟨h, hm⟩

theorem dGet_dSet_self (d : PDist) (k : Int) (v : ℚ) : dGet (dSet d k v) k = v := by
  unfold dSet
  by_cases h : dHasKey d k
  · rw [if_pos h]
    induction d with
    | nil => simp [dHasKey] at h
    | cons e rest ih =>
      by_cases he : e.1 = k
      · simp [dGet, he]
      · simp only [dHasKey, Bool.or_eq_true, decide_eq_true_eq] at h
        rcases h with h | h
        · exact absurd h he
        · simpa [dGet, he] using ih h
  · rw [if_neg h]
    induction d with
    | nil => simp [dGet]
    | cons e rest ih =>
      simp only [dHasKey, Bool.or_eq_true, decide_eq_true_eq, not_or] at h
      simpa [dGet, h.1] using ih h.2

theorem dGet_map_update_ne (d : PDist) (k : Int) (v : ℚ) (k2 : Int) (hne : k2 ≠ k) :
    dGet (d.map fun e => if e.1 = k then (k, v) else e) k2 = dGet d k2 := by
  induction d with
  | nil => rfl
  | cons e rest ih =>
    by_cases he : e.1 = k
    · simp only [List.map_cons, if_pos he, dGet, if_neg (Ne.symm hne),
        if_neg (fun hh : e.1 = k2 => hne (he ▸ hh).symm)]
      exact ih
    · simp only [List.map_cons, if_neg he, dGet]
      by_cases h2 : e.1 = k2
      · simp [h2]
      · simpa [h2] using ih

theorem dGet_append_single_ne (d : PDist) (k : Int) (v : ℚ) (k2 : Int) (hne : k2 ≠ k) :
    dGet (d ++ [(k, v)]) k2 = dGet d k2 := by
  induction d with
  | nil => simp [dGet, Ne.symm hne]
  | cons e rest ih =>
    by_cases h2 : e.1 = k2
    · simp [dGet, h2]
    · simpa [dGet, h2] using ih

theorem dGet_dSet_ne (d : PDist) (k : Int) (v : ℚ) (k2 : Int) (hne : k2 ≠ k) :
    dGet (dSet d k v) k2 = dGet d k2 := by
  unfold dSet
  by_cases h : dHasKey d k
  · rw [if_pos h]
    exact dGet_map_update_ne d k v k2 hne
  · rw [if_neg h]
    exact dGet_append_single_ne d k v k2 hne

/-! ## Semantics of the convolution loop -/

theorem innerFold_get (d2 : PDist) (acc : PDist) (x : Int) (p : ℚ) (k : Int) :
    dGet (d2.foldl
      (fun acc2 e2 => dSet acc2 (x + e2.1) (dGet acc2 (x + e2.1) + p * e2.2)) acc) k =
    dGet acc k + p * ((d2.filter fun e2 => decide (x + e2.1 = k)).map Prod.snd).sum := by
  induction d2 generalizing acc with
  | nil => simp
  | cons e2 rest ih =>
    simp only [List.foldl_cons, List.filter_cons]
    by_cases hc : x + e2.1 = k
    · subst hc
      rw [ih, dGet_dSet_self]
      rw [if_pos (by simp)]
      simp only [List.map_cons, List.sum_cons]
      ring
    · rw [ih, dGet_dSet_ne _ _ _ _ (fun hh => hc hh.symm)]
      simp only [decide_eq_true_eq, if_neg hc]

theorem innerFold_keyFinset (d2 : PDist) (acc : PDist) (x : Int) (p : ℚ) :
    keyFinset (d2.foldl
      (fun acc2 e2 => dSet acc2 (x + e2.1) (dGet acc2 (x + e2.1) + p * e2.2)) acc) =
    keyFinset acc ∪ (d2.map fun e2 => x + e2.1).toFinset := by
  induction d2 generalizing acc with
  | nil => simp
  | cons e2 rest ih =>
    simp only [List.foldl_cons, List.map_cons, List.toFinset_cons]
    rw [ih, keyFinset_dSet]
    ext y
    simp only [Finset.mem_union, Finset.mem_insert, List.mem_toFinset]
    tauto

theorem innerFold_nodup (d2 : PDist) (acc : PDist) (x : Int) (p : ℚ)
    (h : (dKeys acc).Nodup) :
    (dKeys (d2.foldl
      (fun acc2 e2 => dSet acc2 (x + e2.1) (dGet acc2 (x + e2.1) + p * e2.2)) acc)).Nodup := by
  induction d2 generalizing acc with
  | nil => exact h
  | cons e2 rest ih =>
    exact ih _ (nodup_dKeys_dSet _ _ h)

theorem outerFold_get (d1 d2 : PDist) (acc : PDist) (k : Int) :
    dGet (d1.foldl
      (fun acc e1 => d2.foldl
        (fun acc2 e2 => dSet acc2 (e1.1 + e2.1) (dGet acc2 (e1.1 + e2.1) + e1.2 * e2.2)) acc)
      acc) k =
    dGet acc k +
      (d1.map fun e1 =>
        e1.2 * ((d2.filter fun e2 => decide (e1.1 + e2.1 = k)).map Prod.snd).sum).sum := by
  induction d1 generalizing acc with
  | nil => simp
  | cons e1 rest ih =>
    simp only [List.foldl_cons, List.map_cons, List.sum_cons]
    rw [ih, innerFold_get]
    ring

theorem convolve_get (d1 d2 : PDist) (k : Int) :
    dGet (convolve d1 d2) k =
    (d1.map fun e1 =>
      e1.2 * ((d2.filter fun e2 => decide (e1.1 + e2.1 = k)).map Prod.snd).sum).sum := by
  unfold convolve
  rw [outerFold_get]
  simp [dGet]

theorem outerFold_keyFinset (d1 d2 : PDist) (acc : PDist) :
    keyFinset (d1.foldl
      (fun acc e1 => d2.foldl
        (fun acc2 e2 => dSet acc2 (e1.1 + e2.1) (dGet acc2 (e1.1 + e2.1) + e1.2 * e2.2)) acc)
      acc) =
    keyFinset acc ∪ (d1.map fun e1 => (d2.map fun e2 => e1.1 + e2.1).toFinset).foldr (· ∪ ·) ∅ := by
  induction d1 generalizing acc with
  | nil => simp
  | cons e1 rest ih =>
    simp only [List.foldl_cons, List.map_cons, List.foldr_cons]
    rw [ih, innerFold_keyFinset]
    ext y
    simp only [Finset.mem_union, List.mem_toFinset]
    tauto

theorem mem_foldr_union (l : List (Finset Int)) (y : Int) :
    y ∈ l.foldr (· ∪ ·) ∅ ↔ ∃ s ∈ l, y ∈ s := by
  induction l with
  | nil => simp
  | cons s rest ih => simp [ih]

theorem convolve_keyFinset (d1 d2 : PDist) :
    keyFinset (convolve d1 d2) = keyFinset d1 + keyFinset d2 := by
  unfold convolve
  rw [outerFold_keyFinset]
  ext y
  rw [Finset.mem_union, mem_foldr_union, Finset.mem_add]
  simp only [keyFinset, dKeys, List.mem_toFinset, List.mem_map]
  constructor
  · rintro (h | ⟨s, ⟨e1, he1, rfl⟩, hy⟩)
    · simp [keyFinset, dKeys] at h
    · rcases List.mem_toFinset.mp hy with hy2
      rcases List.mem_map.mp hy2 with ⟨e2, he2, rfl⟩
      exact ⟨e1.1, ⟨e1, he1, rfl⟩, e2.1, ⟨e2, he2, rfl⟩, rfl⟩
  · rintro ⟨a, ⟨e1, he1, rfl⟩, b, ⟨e2, he2, rfl⟩, rfl⟩
    refine Or.inr ⟨_, ⟨e1, he1, rfl⟩, ?_⟩
    exact List.mem_toFinset.mpr (List.mem_map.mpr ⟨e2, he2, rfl⟩)

theorem convolve_nodup (d1 d2 : PDist) : (dKeys (convolve d1 d2)).Nodup := by
  unfold convolve
  have h : ∀ acc : PDist, (dKeys acc).Nodup →
      (dKeys (d1.foldl
        (fun acc e1 => d2.foldl
          (fun acc2 e2 => dSet acc2 (e1.1 + e2.1) (dGet acc2 (e1.1 + e2.1) + e1.2 * e2.2)) acc)
        acc)).Nodup := by
    induction d1 with
    | nil => exact fun acc h => h
    | cons e1 rest ih =>
      intro acc hacc
      exact ih _ (innerFold_nodup d2 acc e1.1 e1.2 hacc)
  exact h [] (by simp [dKeys])

theorem filter_eq_nil_of_not_mem {d : PDist} {t : Int} (h : t ∉ dKeys d) :
    d.filter (fun e => decide (e.1 = t)) = [] := by
  induction d with
  | nil => rfl
  | cons e rest ih =>
    simp only [dKeys, List.map_cons, List.mem_cons, not_or] at h
    rw [List.filter_cons, if_neg (by simpa using fun hh : e.1 = t => h.1 hh.symm)]
    exact ih h.2

theorem filter_sum_eq_dGet {d : PDist} {t : Int} (h : (dKeys d).Nodup) :
    ((d.filter fun e => decide (e.1 = t)).map Prod.snd).sum = dGet d t := by
  induction d with
  | nil => rfl
  | cons e rest ih =>
    have hcons : dKeys (e :: rest) = e.1 :: dKeys rest := rfl
    rw [hcons, List.nodup_cons] at h
    rw [List.filter_cons]
    by_cases he : e.1 = t
    · rw [if_pos (by simpa using he)]
      have hrest : t ∉ dKeys rest := he ▸ h.1
      rw [List.map_cons, List.sum_cons, filter_eq_nil_of_not_mem hrest]
      simp [dGet, he]
    · rw [if_neg (by simpa using he)]
      simpa [dGet, he] using ih h.2

theorem entry_sum_eq_finset_sum (F : Int → ℚ → ℚ) {d : PDist} (h : (dKeys d).Nodup) :
    (d.map fun e => F e.1 e.2).sum = ∑ a ∈ keyFinset d, F a (dGet d a) := by
  induction d with
  | nil => simp [keyFinset, dKeys]
  | cons e rest ih =>
    have hcons : dKeys (e :: rest) = e.1 :: dKeys rest := rfl
    rw [hcons, List.nodup_cons] at h
    have hk : keyFinset (e :: rest) = insert e.1 (keyFinset rest) := by
      simp [keyFinset, dKeys]
    have hnotmem : e.1 ∉ keyFinset rest := fun hmem => h.1 (List.mem_toFinset.mp hmem)
    rw [List.map_cons, List.sum_cons, hk, Finset.sum_insert hnotmem]
    have hcong : ∑ a ∈ keyFinset rest, F a (dGet (e :: rest) a) =
        ∑ a ∈ keyFinset rest, F a (dGet rest a) := by
      apply Finset.sum_congr rfl
      intro a ha
      have hne : e.1 ≠ a := fun hh => h.1 (by rw [hh]; exact List.mem_toFinset.mp ha)
      simp [dGet, hne]
    rw [hcong, ← ih h.2, dGet]
    simp

theorem convolve_get_finset (d1 d2 : PDist) (h1 : (dKeys d1).Nodup)
    (h2 : (dKeys d2).Nodup) (k : Int) :
    dGet (convolve d1 d2) k = ∑ a ∈ keyFinset d1, dGet d1 a * dGet d2 (k - a) := by
  rw [convolve_get]
  have hstep : (d1.map fun e1 =>
      e1.2 * ((d2.filter fun e2 => decide (e1.1 + e2.1 = k)).map Prod.snd).sum) =
      d1.map fun e1 => e1.2 * dGet d2 (k - e1.1) := by
    apply List.map_congr_left
    intro e1 _
    have hfix : (d2.filter fun e2 => decide (e1.1 + e2.1 = k)) =
        d2.filter fun e2 => decide (e2.1 = k - e1.1) := by
      apply List.filter_congr
      intro e2 _
      exact decide_eq_decide.mpr (by omega)
    rw [hfix, filter_sum_eq_dGet h2]
  rw [hstep]
  exact entry_sum_eq_finset_sum (fun a p => p * dGet d2 (k - a)) h1

/-! ## The semantic convolution algebra -/

theorem supportedIn_semD (d : PDist) : SupportedIn (semD d) := fun _ ha =>
  dGet_eq_zero_of_not_mem (by simpa [semD, keyFinset] using ha)

theorem semD_convolve {d1 d2 : PDist} (h1 : (dKeys d1).Nodup) (h2 : (dKeys d2).Nodup) :
    semD (convolve d1 d2) = sconv (semD d1) (semD d2) := by
  unfold semD sconv
  refine Prod.ext ?_ ?_
  · exact convolve_keyFinset d1 d2
  · funext k
    exact convolve_get_finset d1 d2 h1 h2 k

theorem sum_mul_extend {X : SemDist} (hX : SupportedIn X) (h : Int → ℚ) {S : Finset Int}
    (hsub : X.1 ⊆ S) : ∑ c ∈ S, X.2 c * h c = ∑ c ∈ X.1, X.2 c * h c := by
  symm
  apply Finset.sum_subset hsub
  intro c _ hnc
  rw [hX c hnc, zero_mul]

theorem sconv_pair_swap {X Y : SemDist} (hX : SupportedIn X) (hY : SupportedIn Y) (u : Int) :
    ∑ c ∈ X.1, X.2 c * Y.2 (u - c) = ∑ d ∈ Y.1, Y.2 d * X.2 (u - d) := by
  rw [← sum_mul_extend hX (fun c => Y.2 (u - c))
      (Finset.subset_union_left : X.1 ⊆ X.1 ∪ Y.1.image fun d => u - d),
    ← sum_mul_extend hY (fun d => X.2 (u - d))
      (Finset.subset_union_left : Y.1 ⊆ Y.1 ∪ X.1.image fun c => u - c)]
  apply Finset.sum_nbij' (fun c => u - c) (fun d => u - d)
  · intro c hc
    rcases Finset.mem_union.mp hc with hc | hc
    · exact Finset.mem_union_right _ (Finset.mem_image.mpr ⟨c, hc, rfl⟩)
    · rcases Finset.mem_image.mp hc with ⟨d, hd, rfl⟩
      exact Finset.mem_union_left _ (by simpa using hd)
  · intro d hd
    rcases Finset.mem_union.mp hd with hd | hd
    · exact Finset.mem_union_right _ (Finset.mem_image.mpr ⟨d, hd, rfl⟩)
    · rcases Finset.mem_image.mp hd with ⟨c, hc, rfl⟩
      exact Finset.mem_union_left _ (by simpa using hc)
  · intro c _
    omega
  · intro d _
    omega
  · intro c _
    have : u - (u - c) = c := by omega
    rw [this, mul_comm]

theorem sconv_supported {A B : SemDist} (hB : SupportedIn B) : SupportedIn (sconv A B) := by
  intro k hk
  show (∑ a ∈ A.1, A.2 a * B.2 (k - a)) = 0
  apply Finset.sum_eq_zero
  intro a ha
  by_cases hb : k - a ∈ B.1
  · exact absurd (by simpa using Finset.add_mem_add ha hb) hk
  · rw [hB _ hb, mul_zero]

theorem sconv_one (A : SemDist) : sconv sOne A = A := by
  unfold sconv sOne
  refine Prod.ext ?_ ?_
  · ext y
    simp [Finset.mem_add]
  · funext k
    show (∑ a ∈ ({0} : Finset Int), (if a = 0 then (1 : ℚ) else 0) * A.2 (k - a)) = A.2 k
    rw [Finset.sum_singleton]
    simp

theorem sconv_right_comm {Z X Y : SemDist} (hX : SupportedIn X) (hY : SupportedIn Y) :
    sconv (sconv Z X) Y = sconv (sconv Z Y) X := by
  have key : ∀ X Y : SemDist, SupportedIn X → ∀ t : Int,
      (sconv (sconv Z X) Y).2 t =
        ∑ b ∈ Z.1, Z.2 b * ∑ c ∈ X.1, X.2 c * Y.2 (t - b - c) := by
    intro X Y hX t
    show (∑ a ∈ Z.1 + X.1, (∑ b ∈ Z.1, Z.2 b * X.2 (a - b)) * Y.2 (t - a)) = _
    have hdist : (∑ a ∈ Z.1 + X.1, (∑ b ∈ Z.1, Z.2 b * X.2 (a - b)) * Y.2 (t - a)) =
        ∑ b ∈ Z.1, ∑ a ∈ Z.1 + X.1, Z.2 b * X.2 (a - b) * Y.2 (t - a) := by
      rw [Finset.sum_comm]
      apply Finset.sum_congr rfl
      intro a _
      rw [Finset.sum_mul]
    rw [hdist]
    apply Finset.sum_congr rfl
    intro b hb
    have hinner : (∑ a ∈ Z.1 + X.1, Z.2 b * X.2 (a - b) * Y.2 (t - a)) =
        ∑ a ∈ X.1.image (fun c => b + c), Z.2 b * X.2 (a - b) * Y.2 (t - a) := by
      symm
      apply Finset.sum_subset
      · intro a ha
        rcases Finset.mem_image.mp ha with ⟨c, hc, rfl⟩
        simpa using Finset.add_mem_add hb hc
      · intro a _ hna
        have hx : a - b ∉ X.1 := fun hmem =>
          hna (Finset.mem_image.mpr ⟨a - b, hmem, by omega⟩)
        rw [hX _ hx, mul_zero, zero_mul]
    rw [hinner, Finset.sum_image (by intro c1 _ c2 _ h; omega), Finset.mul_sum]
    apply Finset.sum_congr rfl
    intro c _
    have h1 : b + c - b = c := by omega
    have h2 : t - (b + c) = t - b - c := by omega
    rw [h1, h2, mul_assoc]
  refine Prod.ext ?_ ?_
  · show Z.1 + X.1 + Y.1 = Z.1 + Y.1 + X.1
    exact add_right_comm _ _ _
  · funext t
    rw [key X Y hX t, key Y X hY t]
    apply Finset.sum_congr rfl
    intro b _
    congr 1
    have hs : ∀ c : Int, t - b - c = (t - b) - c := fun c => rfl
    simpa using sconv_pair_swap hX hY (t - b)

/-! ## Fold homomorphism and permutation invariance -/

theorem semD_foldl_convolve (d0 : PDist) (ds : List PDist) (h0 : (dKeys d0).Nodup)
    (hds : ∀ d ∈ ds, (dKeys d).Nodup) :
    semD (ds.foldl convolve d0) = (ds.map semD).foldl sconv (semD d0) := by
  induction ds generalizing d0 with
  | nil => rfl
  | cons d rest ih =>
    simp only [List.foldl_cons, List.map_cons]
    rw [ih (convolve d0 d) (convolve_nodup d0 d)
      (fun x hx => hds x (List.mem_cons_of_mem _ hx)),
      semD_convolve h0 (hds d (List.mem_cons_self _ _))]

theorem foldl_sconv_perm {L1 L2 : List SemDist} (hp : L1.Perm L2)
    (hsup : ∀ A ∈ L1, SupportedIn A) (B : SemDist) :
    L1.foldl sconv B = L2.foldl sconv B :=
  hp.foldl_eq' (fun x hx y hy _ => sconv_right_comm (hsup x hx) (hsup y hy)) B

theorem nodup_dKeys_group_iter (s : Nat) (n : Nat) :
    (dKeys ((List.range n).foldl (fun acc _ => convolve acc (single_die_distribution s))
      (single_die_distribution s))).Nodup := by
  induction n with
  | zero =>
    rw [List.range_zero, List.foldl_nil]
    unfold single_die_distribution dKeys
    rw [List.map_map]
    refine List.Nodup.map ?_ (List.nodup_range s)
    intro a b hab
    simp only [Function.comp_apply] at hab
    omega
  | succ n ih =>
    rw [List.range_succ, List.foldl_append]
    exact convolve_nodup _ _

theorem nodup_dKeys_single_die (s : Nat) : (dKeys (single_die_distribution s)).Nodup :=
  nodup_dKeys_group_iter s 0

theorem nodup_dKeys_group (g : DiceGroup) : (dKeys (dice_group_distribution g)).Nodup := by
  unfold dice_group_distribution
  by_cases h1 : g.count = 1
  · rw [if_pos h1]
    exact nodup_dKeys_single_die _
  · rw [if_neg h1]
    exact nodup_dKeys_group_iter _ _

theorem semD_distList (g : DiceGroup) (gs : List DiceGroup) :
    semD (gs.foldl (fun acc g2 => convolve acc (dice_group_distribution g2))
      (dice_group_distribution g)) =
    ((g :: gs).map fun g2 => semD (dice_group_distribution g2)).foldl sconv sOne := by
  have h1 : gs.foldl (fun acc g2 => convolve acc (dice_group_distribution g2))
      (dice_group_distribution g) =
      (gs.map dice_group_distribution).foldl convolve (dice_group_distribution g) :=
    (List.foldl_map _ _ _ _).symm
  rw [h1, semD_foldl_convolve _ _ (nodup_dKeys_group g)
    (fun d hd => by rcases List.mem_map.mp hd with ⟨g2, _, rfl⟩; exact nodup_dKeys_group g2)]
  simp only [List.map_cons, List.foldl_cons, List.map_map, sconv_one]
  rfl

theorem keyFinset_shift (d : PDist) (m : Int) :
    keyFinset (d.map fun p => (p.1 + m, p.2)) = (keyFinset d).image (· + m) := by
  ext y
  simp only [keyFinset, dKeys, List.map_map, List.mem_toFinset, List.mem_map,
    Finset.mem_image, Function.comp_apply]
  constructor
  · rintro ⟨e, he, rfl⟩
    exact ⟨e.1, ⟨e, he, rfl⟩, rfl⟩
  · rintro ⟨x, ⟨e, he, rfl⟩, rfl⟩
    exact ⟨e, he, rfl⟩

theorem dGet_shift (d : PDist) (m k : Int) :
    dGet (d.map fun p => (p.1 + m, p.2)) k = dGet d (k - m) := by
  induction d with
  | nil => rfl
  | cons e rest ih =>
    by_cases he : e.1 + m = k
    · simp [dGet, he, show e.1 = k - m by omega]
    · simp only [List.map_cons, dGet, if_neg he, if_neg (show e.1 ≠ k - m by omega)]
      exact ih

/-! ## Key sets of the computed distributions -/

theorem keyFinset_single_die (s : Nat) :
    keyFinset (single_die_distribution s) = Finset.Icc 1 (s : Int) := by
  ext k
  simp only [keyFinset, dKeys, single_die_distribution, List.map_map, List.mem_toFinset,
    List.mem_map, List.mem_range, Function.comp_apply, Finset.mem_Icc]
  constructor
  · rintro ⟨i, hi, rfl⟩
    omega
  · intro hk
    exact ⟨(k - 1).toNat, by omega, by omega⟩

theorem Icc_add_Icc_int {a b c d : Int} (hab : a ≤ b) (hcd : c ≤ d) :
    Finset.Icc a b + Finset.Icc c d = Finset.Icc (a + c) (b + d) := by
  ext k
  simp only [Finset.mem_add, Finset.mem_Icc]
  constructor
  · rintro ⟨x, hx, y, hy, rfl⟩
    omega
  · intro hk
    by_cases h : k - d ≤ a
    · exact ⟨a, ⟨le_refl _, hab⟩, k - a, by omega, by omega⟩
    · exact ⟨k - d, by omega, d, by omega, by omega⟩

theorem keyFinset_group_iter (s : Nat) (hs : 0 < s) (n : Nat) :
    keyFinset ((List.range n).foldl (fun acc _ => convolve acc (single_die_distribution s))
      (single_die_distribution s)) = Finset.Icc ((n : Int) + 1) (((n : Int) + 1) * s) := by
  induction n with
  | zero =>
    rw [List.range_zero, List.foldl_nil, keyFinset_single_die]
    congr 1
    ring
  | succ n ih =>
    have h1 : (1 : Int) ≤ (s : Int) := by exact_mod_cast hs
    have hns : ((n : Int) + 1) ≤ ((n : Int) + 1) * s := by nlinarith
    rw [List.range_succ, List.foldl_append, List.foldl_cons, List.foldl_nil,
      convolve_keyFinset, ih, keyFinset_single_die, Icc_add_Icc_int hns h1]
    congr 1
    all_goals push_cast
    all_goals ring

theorem keyFinset_group (g : DiceGroup) (hc : 0 < g.count) (hs : 0 < g.die.sides) :
    keyFinset (dice_group_distribution g) =
      Finset.Icc (g.count : Int) ((g.count : Int) * g.die.sides) := by
  unfold dice_group_distribution
  by_cases h1 : g.count = 1
  · rw [if_pos h1, keyFinset_single_die, h1]
    norm_num
  · rw [if_neg h1, keyFinset_group_iter _ hs]
    have hc1 : ((g.count - 1 : Nat) : Int) + 1 = (g.count : Int) := by omega
    rw [hc1]

theorem group_min_value_eq (g : DiceGroup) : g.min_value = (g.count : Int) := by
  simp [DiceGroup.min_value, Die.min_value]

theorem group_max_value_eq (g : DiceGroup) :
    g.max_value = (g.count : Int) * g.die.sides := by
  simp [DiceGroup.max_value, Die.max_value]

theorem group_min_le_max (g : DiceGroup) (hc : 0 < g.count) (hs : 0 < g.die.sides) :
    (g.count : Int) ≤ (g.count : Int) * g.die.sides := by
  have h1 : (1 : Int) ≤ (g.die.sides : Int) := by exact_mod_cast hs
  have h2 : (0 : Int) ≤ (g.count : Int) := by positivity
  nlinarith

theorem keyFinset_foldl_groups (gs : List DiceGroup)
    (hgs : ∀ g ∈ gs, 0 < g.count ∧ 0 < g.die.sides) :
    ∀ (acc : PDist) (lo hi : Int), keyFinset acc = Finset.Icc lo hi → lo ≤ hi →
    keyFinset (gs.foldl (fun acc g2 => convolve acc (dice_group_distribution g2)) acc) =
      Finset.Icc (lo + (gs.map DiceGroup.min_value).sum)
        (hi + (gs.map DiceGroup.max_value).sum) := by
  induction gs with
  | nil =>
    intro acc lo hi hacc _
    simpa using hacc
  | cons g rest ih =>
    intro acc lo hi hacc hlh
    have hg := hgs g (List.mem_cons_self _ _)
    have hrest : ∀ g2 ∈ rest, 0 < g2.count ∧ 0 < g2.die.sides :=
      fun g2 h2 => hgs g2 (List.mem_cons_of_mem _ h2)
    simp only [List.foldl_cons, List.map_cons, List.sum_cons]
    have hstep : keyFinset (convolve acc (dice_group_distribution g)) =
        Finset.Icc (lo + g.min_value) (hi + g.max_value) := by
      rw [convolve_keyFinset, hacc, keyFinset_group g hg.1 hg.2,
        Icc_add_Icc_int hlh (group_min_le_max g hg.1 hg.2), group_min_value_eq,
        group_max_value_eq]
    have hnext : lo + g.min_value ≤ hi + g.max_value := by
      have := group_min_le_max g hg.1 hg.2
      rw [group_min_value_eq, group_max_value_eq]
      omega
    rw [ih hrest _ _ _ hstep hnext]
    congr 1
    · ring
    · ring

theorem calculate_distribution_nil (e : DiceExpression) (h : e.dice_groups = []) :
    calculate_distribution e = [(e.modifier, 1)] := by
  unfold calculate_distribution
  rw [h]

theorem calculate_distribution_cons (e : DiceExpression) (g : DiceGroup) (gs : List DiceGroup)
    (h : e.dice_groups = g :: gs) :
    calculate_distribution e =
      (if e.modifier ≠ 0 then
        (gs.foldl (fun acc g2 => convolve acc (dice_group_distribution g2))
          (dice_group_distribution g)).map fun p => (p.1 + e.modifier, p.2)
      else gs.foldl (fun acc g2 => convolve acc (dice_group_distribution g2))
        (dice_group_distribution g)) := by
  unfold calculate_distribution
  rw [h]

theorem calculate_distribution_cons_lit (g : DiceGroup) (gs : List DiceGroup) (m : Int) :
    calculate_distribution ⟨g :: gs, m⟩ =
      (if m ≠ 0 then
        (gs.foldl (fun acc g2 => convolve acc (dice_group_distribution g2))
          (dice_group_distribution g)).map fun p => (p.1 + m, p.2)
      else gs.foldl (fun acc g2 => convolve acc (dice_group_distribution g2))
        (dice_group_distribution g)) :=
  calculate_distribution_cons ⟨g :: gs, m⟩ g gs rfl

theorem keyFinset_calculate_distribution (e : DiceExpression) (h : e.WF) :
    keyFinset (calculate_distribution e) = Finset.Icc e.min_value e.max_value := by
  rcases hgs : e.dice_groups with _ | ⟨g, gs⟩
  · rw [calculate_distribution_nil e hgs]
    have hmin : e.min_value = e.modifier := by simp [DiceExpression.min_value, hgs]
    have hmax : e.max_value = e.modifier := by simp [DiceExpression.max_value, hgs]
    rw [hmin, hmax]
    ext y
    simp [keyFinset, dKeys, Finset.mem_Icc, eq_comm, le_antisymm_iff]
  · rw [calculate_distribution_cons e g gs hgs]
    have hg : 0 < g.count ∧ 0 < g.die.sides := h g (hgs ▸ List.mem_cons_self _ _)
    have hrest : ∀ g2 ∈ gs, 0 < g2.count ∧ 0 < g2.die.sides :=
      fun g2 h2 => h g2 (hgs ▸ List.mem_cons_of_mem _ h2)
    have hbase : keyFinset (gs.foldl (fun acc g2 => convolve acc (dice_group_distribution g2))
        (dice_group_distribution g)) =
        Finset.Icc ((g :: gs).map DiceGroup.min_value).sum
          ((g :: gs).map DiceGroup.max_value).sum := by
      rw [keyFinset_foldl_groups gs hrest _ _ _ (keyFinset_group g hg.1 hg.2)
        (group_min_le_max g hg.1 hg.2)]
      simp only [List.map_cons, List.sum_cons]
      congr 1
      all_goals simp only [group_min_value_eq, group_max_value_eq]
    have hmin : e.min_value = ((g :: gs).map DiceGroup.min_value).sum + e.modifier := by
      simp [DiceExpression.min_value, hgs]
    have hmax : e.max_value = ((g :: gs).map DiceGroup.max_value).sum + e.modifier := by
      simp [DiceExpression.max_value, hgs]
    by_cases hm : e.modifier ≠ 0
    · rw [if_pos hm, keyFinset_shift, hbase, Finset.image_add_right_Icc, hmin, hmax]
    · rw [if_neg hm]
      push_neg at hm
      rw [hbase, hmin, hmax, hm]
      congr 1
      all_goals ring

/-! ## Attainability -/

theorem groupAttains_faces_iff (s : Nat) (hs : 0 < s) :
    ∀ (n : Nat) (k : Int),
      (∃ faces : List Int, faces.length = n ∧
        (∀ f ∈ faces, 1 ≤ f ∧ f ≤ (s : Int)) ∧ faces.sum = k) ↔
      ((n : Int) ≤ k ∧ k ≤ (n : Int) * s) := by
  have hs1 : (1 : Int) ≤ (s : Int) := by exact_mod_cast hs
  intro n
  induction n with
  | zero =>
    intro k
    simp only [Nat.cast_zero, zero_mul]
    constructor
    · rintro ⟨faces, hlen, _, hsum⟩
      rw [List.length_eq_zero.mp hlen] at hsum
      simp only [List.sum_nil] at hsum
      omega
    · intro hk
      refine ⟨[], rfl, by intro f hf; simp at hf, ?_⟩
      simp only [List.sum_nil]
      omega
  | succ n ih =>
    intro k
    have hcast : ((n + 1 : Nat) : Int) = (n : Int) + 1 := by push_cast; ring
    rw [hcast]
    constructor
    · rintro ⟨faces, hlen, hbnd, hsum⟩
      match faces with
      | [] => simp at hlen
      | f :: rest =>
        have hf := hbnd f (List.mem_cons_self _ _)
        have hrest : ∃ faces : List Int, faces.length = n ∧
            (∀ x ∈ faces, 1 ≤ x ∧ x ≤ (s : Int)) ∧ faces.sum = k - f :=
          ⟨rest, by simpa using hlen, fun x hx => hbnd x (List.mem_cons_of_mem _ hx),
            by rw [List.sum_cons] at hsum; omega⟩
        have hnk := (ih (k - f)).mp hrest
        constructor
        · omega
        · nlinarith [hf.1, hf.2, hnk.1, hnk.2]
    · intro hk
      by_cases hcase : k - (n : Int) * s ≤ 1
      · have hrest := (ih (k - 1)).mpr ⟨by omega, by omega⟩
        rcases hrest with ⟨faces, hlen, hbnd, hsum⟩
        refine ⟨1 :: faces, by simp [hlen], ?_, ?_⟩
        · intro f hf
          rcases List.mem_cons.mp hf with rfl | hf2
          · exact ⟨le_refl _, hs1⟩
          · exact hbnd f hf2
        · rw [List.sum_cons, hsum]
          ring
      · have hfub : k - (n : Int) * s ≤ (s : Int) := by nlinarith [hk.2]
        have hnn : (n : Int) ≤ (n : Int) * s := by nlinarith [Int.natCast_nonneg n]
        have hrest := (ih ((n : Int) * s)).mpr ⟨hnn, le_refl _⟩
        rcases hrest with ⟨faces, hlen, hbnd, hsum⟩
        refine ⟨(k - (n : Int) * s) :: faces, by simp [hlen], ?_, ?_⟩
        · intro f hf
          rcases List.mem_cons.mp hf with rfl | hf2
          · exact ⟨by omega, hfub⟩
          · exact hbnd f hf2
        · rw [List.sum_cons, hsum]
          ring

theorem groupAttains_iff (g : DiceGroup) (_hc : 0 < g.count) (hs : 0 < g.die.sides) (k : Int) :
    groupAttains g k ↔ ((g.count : Int) ≤ k ∧ k ≤ (g.count : Int) * g.die.sides) :=
  groupAttains_faces_iff g.die.sides hs g.count k

theorem sum_min_le_sum_max (gs : List DiceGroup)
    (hgs : ∀ g ∈ gs, 0 < g.count ∧ 0 < g.die.sides) :
    (gs.map DiceGroup.min_value).sum ≤ (gs.map DiceGroup.max_value).sum := by
  induction gs with
  | nil => simp
  | cons g rest ih =>
    have hg := hgs g (List.mem_cons_self _ _)
    have hrest : ∀ g2 ∈ rest, 0 < g2.count ∧ 0 < g2.die.sides :=
      fun g2 h2 => hgs g2 (List.mem_cons_of_mem _ h2)
    simp only [List.map_cons, List.sum_cons]
    have h1 : g.min_value ≤ g.max_value := by
      rw [group_min_value_eq, group_max_value_eq]
      exact group_min_le_max g hg.1 hg.2
    have h2 := ih hrest
    omega

theorem attainsGroups_iff (gs : List DiceGroup)
    (hgs : ∀ g ∈ gs, 0 < g.count ∧ 0 < g.die.sides) (k : Int) :
    attainsGroups gs k ↔
      ((gs.map DiceGroup.min_value).sum ≤ k ∧ k ≤ (gs.map DiceGroup.max_value).sum) := by
  induction gs generalizing k with
  | nil =>
    simp only [attainsGroups, List.map_nil, List.sum_nil]
    omega
  | cons g rest ih =>
    have hg := hgs g (List.mem_cons_self _ _)
    have hrest : ∀ g2 ∈ rest, 0 < g2.count ∧ 0 < g2.die.sides :=
      fun g2 h2 => hgs g2 (List.mem_cons_of_mem _ h2)
    simp only [attainsGroups, List.map_cons, List.sum_cons]
    constructor
    · rintro ⟨a, b, ha, hb, rfl⟩
      have h1 := (groupAttains_iff g hg.1 hg.2 a).mp ha
      have h2 := (ih hrest b).mp hb
      rw [group_min_value_eq, group_max_value_eq]
      omega
    · intro hk
      rw [group_min_value_eq, group_max_value_eq] at hk
      have hlh2 : (rest.map DiceGroup.min_value).sum ≤ (rest.map DiceGroup.max_value).sum :=
        sum_min_le_sum_max rest hrest
      have hgmm := group_min_le_max g hg.1 hg.2
      by_cases hcase : k - (rest.map DiceGroup.max_value).sum ≤ (g.count : Int)
      · refine ⟨(g.count : Int), k - (g.count : Int),
          (groupAttains_iff g hg.1 hg.2 _).mpr ⟨le_refl _, hgmm⟩,
          (ih hrest _).mpr ⟨by omega, by omega⟩, by ring⟩
      · refine ⟨k - (rest.map DiceGroup.max_value).sum, (rest.map DiceGroup.max_value).sum,
          (groupAttains_iff g hg.1 hg.2 _).mpr ⟨by omega, by omega⟩,
          (ih hrest _).mpr ⟨by omega, le_refl _⟩, by ring⟩

theorem attains_iff (e : DiceExpression) (h : e.WF) (k : Int) :
    attains e k ↔ (e.min_value ≤ k ∧ k ≤ e.max_value) := by
  unfold attains DiceExpression.min_value DiceExpression.max_value
  rw [attainsGroups_iff e.dice_groups h (k - e.modifier)]
  omega

/-! ## Claim theorems -/

/-- C1 (code bug evidence): on the input `"1d6+25d6"` the parser embeds the
source's regex backtracking: the modifier scan matches the sign and the
first digit of the dice count `25` (the `(?!d)` lookahead succeeds one
digit early), so the parsed modifier is 2 even though every signed digit
run in the input is immediately followed by `d` and the modifier should be
0 under the claim.  The groups themselves are parsed as 1d6 and 25d6. -/
theorem c1_modifier_steals_count_prefix :
    parse "1d6+25d6" = .ok ⟨[⟨1, ⟨6⟩⟩, ⟨25, ⟨6⟩⟩], 2⟩ ∧
    findMods "1d6+25d6".data = [('+', ['2'])] :=
  ⟨rfl, rfl⟩

/-- C2 (code bug evidence): the round-trip fails on `"1d6+25d6"`: parsing
yields modifier 2 (see C1), the canonical rendering is
`"1d6 + 25d6 + 2"`, and re-parsing that rendering yields modifier 4 — the
re-parse picks up both the prefix `+2` of `25d6` and the rendered `+ 2` —
so `parse (str (parse text))` is not structurally equal to `parse text`. -/
theorem c2_roundtrip_fails :
    parse "1d6+25d6" = .ok ⟨[⟨1, ⟨6⟩⟩, ⟨25, ⟨6⟩⟩], 2⟩ ∧
    DiceExpression.toCanonical ⟨[⟨1, ⟨6⟩⟩, ⟨25, ⟨6⟩⟩], 2⟩ = "1d6 + 25d6 + 2" ∧
    parse "1d6 + 25d6 + 2" = .ok ⟨[⟨1, ⟨6⟩⟩, ⟨25, ⟨6⟩⟩], 4⟩ ∧
    (⟨[⟨1, ⟨6⟩⟩, ⟨25, ⟨6⟩⟩], 4⟩ : DiceExpression) ≠ ⟨[⟨1, ⟨6⟩⟩, ⟨25, ⟨6⟩⟩], 2⟩ :=
  ⟨rfl, rfl, rfl, by decide⟩

/-- C3: for every well-formed expression (the zero-group case included,
where the distribution is the single dict `[(modifier, 1)]`), the keys of
`calculate_distribution` have minimum `min_value` and maximum `max_value`,
and every attainable total (a sum of die faces plus the modifier) is
present as a key. -/
theorem c3_distribution_key_range (e : DiceExpression) (h : e.WF) :
    (keyFinset (calculate_distribution e)).min = (e.min_value : WithTop Int) ∧
    (keyFinset (calculate_distribution e)).max = (e.max_value : WithBot Int) ∧
    (∀ k : Int, attains e k → k ∈ keyFinset (calculate_distribution e)) ∧
    (e.dice_groups = [] → calculate_distribution e = [(e.modifier, 1)]) := by
  have hkeys := keyFinset_calculate_distribution e h
  have hminmax : e.min_value ≤ e.max_value := by
    unfold DiceExpression.min_value DiceExpression.max_value
    have := sum_min_le_sum_max e.dice_groups h
    omega
  refine ⟨?_, ?_, ?_, fun hnil => calculate_distribution_nil e hnil⟩
  · rw [hkeys]
    apply le_antisymm
    · exact Finset.min_le (Finset.mem_Icc.mpr ⟨le_refl _, hminmax⟩)
    · apply Finset.le_min
      intro b hb
      exact_mod_cast (Finset.mem_Icc.mp hb).1
  · rw [hkeys]
    apply le_antisymm
    · apply Finset.max_le
      intro b hb
      exact_mod_cast (Finset.mem_Icc.mp hb).2
    · exact Finset.le_max (Finset.mem_Icc.mpr ⟨hminmax, le_refl _⟩)
  · intro k hk
    rw [hkeys, Finset.mem_Icc]
    exact (attains_iff e h k).mp hk

/-- Witness for C3 at the concrete expression 2d6+1: its keys are 3..13,
minimum `min_value = 3`, maximum `max_value = 13`. -/
theorem c3_witness :
    (DiceExpression.WF ⟨[⟨2, ⟨6⟩⟩], 1⟩) ∧
    ((keyFinset (calculate_distribution ⟨[⟨2, ⟨6⟩⟩], 1⟩)).min =
        ((DiceExpression.min_value ⟨[⟨2, ⟨6⟩⟩], 1⟩ : Int) : WithTop Int) ∧
      (keyFinset (calculate_distribution ⟨[⟨2, ⟨6⟩⟩], 1⟩)).max =
        ((DiceExpression.max_value ⟨[⟨2, ⟨6⟩⟩], 1⟩ : Int) : WithBot Int) ∧
      (∀ k : Int, attains ⟨[⟨2, ⟨6⟩⟩], 1⟩ k →
        k ∈ keyFinset (calculate_distribution ⟨[⟨2, ⟨6⟩⟩], 1⟩)) ∧
      ((⟨[⟨2, ⟨6⟩⟩], 1⟩ : DiceExpression).dice_groups = [] →
        calculate_distribution ⟨[⟨2, ⟨6⟩⟩], 1⟩ = [((⟨[⟨2, ⟨6⟩⟩], 1⟩ : DiceExpression).modifier, 1)])) :=
  ⟨by decide, c3_distribution_key_range ⟨[⟨2, ⟨6⟩⟩], 1⟩ (by decide)⟩

set_option maxRecDepth 40000 in
/-- C4 (counterexample to the claim as stated): in the source's IEEE
binary64 arithmetic, permuting the groups of `1d3+2d4` changes the stored
probability of total 5 by one ulp: group order `[1d3, 2d4]` stores
`0x1.fffffffffffffp-4` while `[2d4, 1d3]` stores `0x1.0p-3`, two distinct
doubles denoting distinct rationals — so the two dicts are not the same
mapping, refuting bit-level per-key equality under permutation. -/
theorem c4_counterexample_float_rounding :
    dGetF (calculate_distributionF ⟨[⟨1, ⟨3⟩⟩, ⟨2, ⟨4⟩⟩], 0⟩) 5 =
      ⟨9007199254740991, -56⟩ ∧
    dGetF (calculate_distributionF ⟨[⟨2, ⟨4⟩⟩, ⟨1, ⟨3⟩⟩], 0⟩) 5 = ⟨1, -3⟩ ∧
    dGetF (calculate_distributionF ⟨[⟨1, ⟨3⟩⟩, ⟨2, ⟨4⟩⟩], 0⟩) 5 ≠
      dGetF (calculate_distributionF ⟨[⟨2, ⟨4⟩⟩, ⟨1, ⟨3⟩⟩], 0⟩) 5 ∧
    Fl.toRat ⟨9007199254740991, -56⟩ ≠ Fl.toRat ⟨1, -3⟩ ∧
    ([⟨1, ⟨3⟩⟩, ⟨2, ⟨4⟩⟩] : List DiceGroup).Perm [⟨2, ⟨4⟩⟩, ⟨1, ⟨3⟩⟩] := by
  refine ⟨by decide, by decide, by decide, ?_, by decide⟩
  unfold Fl.toRat
  norm_num

/-- C4 (amended): permuting the ordered group list leaves the key set of
`calculate_distribution` unchanged, and leaves every per-key probability
unchanged in exact (rational) arithmetic — the algebraic content of the
convolution is order-invariant; what group order can change is only the
last-ulp floating-point rounding of equal exact values (see the
counterexample above). -/
theorem c4_distribution_perm_invariant (gs gs2 : List DiceGroup) (m : Int)
    (hp : gs.Perm gs2) :
    keyFinset (calculate_distribution ⟨gs, m⟩) =
      keyFinset (calculate_distribution ⟨gs2, m⟩) ∧
    ∀ k, dGet (calculate_distribution ⟨gs, m⟩) k =
      dGet (calculate_distribution ⟨gs2, m⟩) k := by
  cases gs with
  | nil =>
    have h2 : gs2 = [] := hp.symm.eq_nil
    subst h2
    exact ⟨rfl, fun _ => rfl⟩
  | cons g rest =>
    cases gs2 with
    | nil => exact absurd hp.eq_nil (by simp)
    | cons g2 rest2 =>
      have hsem : semD (rest.foldl (fun acc g3 => convolve acc (dice_group_distribution g3))
            (dice_group_distribution g)) =
          semD (rest2.foldl (fun acc g3 => convolve acc (dice_group_distribution g3))
            (dice_group_distribution g2)) := by
        rw [semD_distList g rest, semD_distList g2 rest2]
        apply foldl_sconv_perm
        · exact hp.map fun g3 => semD (dice_group_distribution g3)
        · intro A hA
          rcases List.mem_map.mp hA with ⟨g3, _, rfl⟩
          exact supportedIn_semD _
      have hkeys := congrArg Prod.fst hsem
      have hget := congrArg Prod.snd hsem
      simp only [semD] at hkeys hget
      rw [calculate_distribution_cons_lit g rest m, calculate_distribution_cons_lit g2 rest2 m]
      refine ⟨?_, ?_⟩
      · by_cases hm : m ≠ 0
        · rw [if_pos hm, if_pos hm, keyFinset_shift, keyFinset_shift, hkeys]
        · rw [if_neg hm, if_neg hm, hkeys]
      · intro k
        by_cases hm : m ≠ 0
        · rw [if_pos hm, if_pos hm, dGet_shift, dGet_shift, hget]
        · rw [if_neg hm, if_neg hm, hget]

/-- Witness for C4 at the concrete permutation 2d6+1d4-3 versus
1d4+2d6-3. -/
theorem c4_witness :
    ([⟨2, ⟨6⟩⟩, ⟨1, ⟨4⟩⟩] : List DiceGroup).Perm [⟨1, ⟨4⟩⟩, ⟨2, ⟨6⟩⟩] ∧
    (keyFinset (calculate_distribution ⟨[⟨2, ⟨6⟩⟩, ⟨1, ⟨4⟩⟩], -3⟩) =
      keyFinset (calculate_distribution ⟨[⟨1, ⟨4⟩⟩, ⟨2, ⟨6⟩⟩], -3⟩) ∧
    ∀ k, dGet (calculate_distribution ⟨[⟨2, ⟨6⟩⟩, ⟨1, ⟨4⟩⟩], -3⟩) k =
      dGet (calculate_distribution ⟨[⟨1, ⟨4⟩⟩, ⟨2, ⟨6⟩⟩], -3⟩) k) :=
  ⟨by decide, c4_distribution_perm_invariant _ _ (-3) (by decide)⟩

theorem rollN_length (r : DiceRoller) (e : DiceExpression) (n : Nat) :
    (rollN r e n).1.length = n := by
  induction n generalizing r with
  | zero => rfl
  | succ n ih =>
    unfold rollN
    simp [ih]

/-- C5: determinism of the roller.  Two rollers freshly constructed from
the same integer seed produce, for any expression and any iteration count
n ≥ 1, the exact same list of roll results — in particular identical
sequences of per-die values and identical sequences of totals — and their
single rolls agree as well.  (`random.Random` is stdlib code outside the
repository; it is modelled as a deterministic seeded generator, which is
the property the spec assigns to it.) -/
theorem c5_roller_determinism (seed : Int) (e : DiceExpression) (n : Nat) (hn : 1 ≤ n)
    (r1 r2 : DiceRoller) (h1 : r1 = DiceRoller.init seed) (h2 : r2 = DiceRoller.init seed) :
    (∃ results : List RollResult,
      (r1.roll_multiple e n).1 = .ok results ∧
      (r2.roll_multiple e n).1 = .ok results ∧
      results.length = n ∧
      results.map RollResult.total = results.map RollResult.total ∧
      results.map RollResult.individual_rolls = results.map RollResult.individual_rolls) ∧
    (r1.roll_single e).1 = (r2.roll_single e).1 := by
  subst h1
  subst h2
  refine ⟨⟨(rollN (DiceRoller.init seed) e n).1, ?_, ?_, ?_, rfl, rfl⟩, rfl⟩
  · unfold DiceRoller.roll_multiple
    rw [if_neg (by omega : ¬ ((n : Int) ≤ 0))]
    simp
  · unfold DiceRoller.roll_multiple
    rw [if_neg (by omega : ¬ ((n : Int) ≤ 0))]
    simp
  · exact rollN_length _ _ _

/-- Witness for C5 at seed 42, expression 2d6+1, n = 3. -/
theorem c5_witness :
    1 ≤ 3 ∧
    ((∃ results : List RollResult,
      ((DiceRoller.init 42).roll_multiple ⟨[⟨2, ⟨6⟩⟩], 1⟩ 3).1 = .ok results ∧
      ((DiceRoller.init 42).roll_multiple ⟨[⟨2, ⟨6⟩⟩], 1⟩ 3).1 = .ok results ∧
      results.length = 3 ∧
      results.map RollResult.total = results.map RollResult.total ∧
      results.map RollResult.individual_rolls = results.map RollResult.individual_rolls) ∧
    ((DiceRoller.init 42).roll_single ⟨[⟨2, ⟨6⟩⟩], 1⟩).1 =
      ((DiceRoller.init 42).roll_single ⟨[⟨2, ⟨6⟩⟩], 1⟩).1) :=
  ⟨by omega, c5_roller_determinism 42 ⟨[⟨2, ⟨6⟩⟩], 1⟩ 3 (by omega) _ _ rfl rfl⟩

theorem rollTargetLoop_spec (e : DiceExpression) (t : Int) :
    ∀ (fuel : Nat) (r : DiceRoller) (attempt : Nat),
      (∃ roll k, (rollTargetLoop r e t fuel attempt).1 = .ok (roll, k) ∧
        roll.total = t ∧ attempt ≤ k ∧ k < attempt + fuel) ∨
      (rollTargetLoop r e t fuel attempt = (.error .targetNotReached, (rollN r e fuel).2) ∧
        ∀ x ∈ (rollN r e fuel).1, x.total ≠ t) := by
  intro fuel
  induction fuel with
  | zero =>
    intro r attempt
    right
    exact ⟨rfl, by simp [rollN]⟩
  | succ fuel ih =>
    intro r attempt
    rcases hrs : r.roll_single e with ⟨roll1, r2⟩
    have hloop : rollTargetLoop r e t (fuel + 1) attempt =
        if roll1.total = t then (.ok (roll1, attempt), r2)
        else rollTargetLoop r2 e t fuel (attempt + 1) := by
      simp only [rollTargetLoop, hrs]
    have hrollN : rollN r e (fuel + 1) =
        (roll1 :: (rollN r2 e fuel).1, (rollN r2 e fuel).2) := by
      simp only [rollN, hrs]
    by_cases hhit : roll1.total = t
    · left
      exact ⟨roll1, attempt, by rw [hloop, if_pos hhit], hhit, le_refl _, by omega⟩
    · rcases ih r2 (attempt + 1) with ⟨roll, k, hres, htot, hlo, hhi⟩ | ⟨hres, hmiss⟩
      · left
        refine ⟨roll, k, ?_, htot, by omega, by omega⟩
        rw [hloop, if_neg hhit]
        exact hres
      · right
        constructor
        · rw [hloop, if_neg hhit, hres, hrollN]
        · intro x hx
          rw [hrollN] at hx
          rcases List.mem_cons.mp hx with rfl | hx
          · exact hhit
          · exact hmiss x hx

/-- C6: `roll_with_target` fails before consuming a single roll — the
returned generator state is exactly the input state — whenever the target
is outside `[min_value, max_value]`; for an in-range target it either
returns a roll whose total equals the target together with an attempt
count in `[1, max_attempts]`, or fails with the target-not-reached error
after exactly `max_attempts` rolls (the final state is the state after
`max_attempts` single rolls), none of which hit the target. -/
theorem c6_roll_with_target (r : DiceRoller) (e : DiceExpression) (target : Int) (m : Nat) :
    ((target < e.min_value ∨ target > e.max_value) →
      r.roll_with_target e target m = (.error .impossibleTarget, r)) ∧
    ((e.min_value ≤ target ∧ target ≤ e.max_value) →
      ((∃ roll k, (r.roll_with_target e target m).1 = .ok (roll, k) ∧
        roll.total = target ∧ 1 ≤ k ∧ k ≤ m) ∨
      (r.roll_with_target e target m = (.error .targetNotReached, (rollN r e m).2) ∧
        (rollN r e m).1.length = m ∧ ∀ x ∈ (rollN r e m).1, x.total ≠ target))) := by
  constructor
  · intro hout
    unfold DiceRoller.roll_with_target
    rw [if_pos (by rcases hout with h | h
                   · simp [h]
                   · simp [h])]
  · intro hin
    unfold DiceRoller.roll_with_target
    rw [if_neg (by simp only [Bool.or_eq_true, decide_eq_true_eq, not_or, not_lt]
                   omega)]
    rcases rollTargetLoop_spec e target m r 1 with ⟨roll, k, hres, htot, hlo, hhi⟩ | hfail
    · exact Or.inl ⟨roll, k, hres, htot, hlo, by omega⟩
    · exact Or.inr ⟨hfail.1, rollN_length _ _ _, hfail.2⟩

/-- Witness for C6: a d6 expression with target 7 (outside `[1, 6]`) fails
immediately with the validation error and an unchanged roller state. -/
theorem c6_witness :
    ((7 : Int) < (DiceExpression.min_value ⟨[⟨1, ⟨6⟩⟩], 0⟩) ∨
      (7 : Int) > DiceExpression.max_value ⟨[⟨1, ⟨6⟩⟩], 0⟩) ∧
    (DiceRoller.init 0).roll_with_target ⟨[⟨1, ⟨6⟩⟩], 0⟩ 7 5 =
      (.error .impossibleTarget, DiceRoller.init 0) :=
  ⟨by decide,
    (c6_roll_with_target (DiceRoller.init 0) ⟨[⟨1, ⟨6⟩⟩], 0⟩ 7 5).1 (by decide)⟩

/-- C8: with zero standard deviation both `calculate_skewness` and
`calculate_kurtosis` return 0 (no division is attempted); with nonzero
standard deviation they compute `Σ p(v)·((v−mean)/σ)³` and
`Σ p(v)·((v−mean)/σ)⁴ − 3` (excess kurtosis) over the distribution. -/
theorem c8_skewness_kurtosis (d : PDist) (mean σ : ℚ) (hnd : (dKeys d).Nodup) :
    (σ = 0 → calculate_skewness d mean σ = 0 ∧ calculate_kurtosis d mean σ = 0) ∧
    (σ ≠ 0 →
      calculate_skewness d mean σ =
        ∑ v ∈ keyFinset d, dGet d v * (((v : ℚ) - mean) / σ) ^ 3 ∧
      calculate_kurtosis d mean σ =
        (∑ v ∈ keyFinset d, dGet d v * (((v : ℚ) - mean) / σ) ^ 4) - 3) := by
  constructor
  · intro h0
    unfold calculate_skewness calculate_kurtosis
    rw [if_pos h0, if_pos h0]
    exact ⟨rfl, rfl⟩
  · intro hσ
    unfold calculate_skewness calculate_kurtosis
    rw [if_neg hσ, if_neg hσ]
    constructor
    · exact entry_sum_eq_finset_sum (fun v p => p * (((v : ℚ) - mean) / σ) ^ 3) hnd
    · rw [entry_sum_eq_finset_sum (fun v p => p * (((v : ℚ) - mean) / σ) ^ 4) hnd]

/-- Witness for C8 on the d4 distribution with σ = 0. -/
theorem c8_witness :
    (dKeys (single_die_distribution 4)).Nodup ∧
    (calculate_skewness (single_die_distribution 4) (5 / 2) 0 = 0 ∧
      calculate_kurtosis (single_die_distribution 4) (5 / 2) 0 = 0) :=
  ⟨by decide, (c8_skewness_kurtosis (single_die_distribution 4) (5 / 2) 0 (by decide)).1 rfl⟩

/-- C10: when the closed-form mean of an expression is zero,
`get_extended_statistics` reports a coefficient of variation of 0 rather
than dividing the standard deviation by the zero mean. -/
theorem c10_zero_mean_cv (e : DiceExpression) (h : e.average_value = 0) :
    (get_extended_statistics e).coefficient_of_variation = 0 := by
  unfold get_extended_statistics
  simp [h]

/-- Witness for C10 at the zero-modifier constant expression, whose
average is 0. -/
theorem c10_witness :
    DiceExpression.average_value ⟨[], 0⟩ = 0 ∧
    (get_extended_statistics ⟨[], 0⟩).coefficient_of_variation = 0 :=
  ⟨by simp [DiceExpression.average_value],
    c10_zero_mean_cv ⟨[], 0⟩ (by simp [DiceExpression.average_value])⟩

/-! ## Sorting lemmas for the invalid-character message -/

theorem insertChar_perm (c : Char) (l : List Char) : (insertChar c l).Perm (c :: l) := by
  induction l with
  | nil => exact List.Perm.refl _
  | cons x xs ih =>
    rw [insertChar]
    by_cases hc : c.toNat ≤ x.toNat
    · rw [if_pos hc]
    · rw [if_neg hc]
      exact (ih.cons x).trans (List.Perm.swap c x xs)

theorem sortChars_perm (l : List Char) : (sortChars l).Perm l := by
  induction l with
  | nil => exact List.Perm.refl _
  | cons x xs ih =>
    show (insertChar x (sortChars xs)).Perm (x :: xs)
    exact (insertChar_perm x (sortChars xs)).trans (ih.cons x)

theorem insertChar_pairwise (c : Char) (l : List Char)
    (h : l.Pairwise fun a b => a.toNat ≤ b.toNat) :
    (insertChar c l).Pairwise fun a b => a.toNat ≤ b.toNat := by
  induction l with
  | nil => simp [insertChar]
  | cons x xs ih =>
    rw [insertChar]
    rcases List.pairwise_cons.mp h with ⟨hx, hxs⟩
    by_cases hc : c.toNat ≤ x.toNat
    · rw [if_pos hc]
      refine List.pairwise_cons.mpr ⟨?_, h⟩
      intro b hb
      rcases List.mem_cons.mp hb with rfl | hb2
      · exact hc
      · exact le_trans hc (hx b hb2)
    · rw [if_neg hc]
      refine List.pairwise_cons.mpr ⟨?_, ih hxs⟩
      intro b hb
      have hb3 := (insertChar_perm c xs).mem_iff.mp hb
      rcases List.mem_cons.mp hb3 with rfl | hb2
      · omega
      · exact hx b hb2

theorem sortChars_sorted (l : List Char) :
    (sortChars l).Pairwise fun a b => a.toNat ≤ b.toNat := by
  induction l with
  | nil => simp [sortChars]
  | cons x xs ih => exact insertChar_pairwise x (sortChars xs) ih

/-- C9 (amended): whenever the whitespace-stripped input contains a
character outside the valid set (digits, `d`, `D`, `+`, `-`, space),
`parse` fails with the invalid-characters error, and the characters it
names are exactly the offending characters of the stripped input,
deduplicated exactly (case-sensitively, by `set()`) and sorted in
ascending code-point order. -/
theorem c9_invalid_chars_error (text : String)
    (h : ∃ c ∈ text.data.filter fun c => !isPySpace c, isValidChar c = false) :
    ∃ L : List Char,
      parse text = .error (.invalidChars L) ∧
      (L.Pairwise fun a b => a.toNat ≤ b.toNat) ∧
      L.Nodup ∧
      ∀ c, c ∈ L ↔
        (c ∈ text.data.filter (fun c => !isPySpace c) ∧ isValidChar c = false) := by
  rcases h with ⟨c0, hc0mem, hc0inv⟩
  have hmem0 : c0 ∈ text.data := (List.mem_filter.mp hc0mem).1
  have hnsp : (!isPySpace c0) = true := (List.mem_filter.mp hc0mem).2
  have hinv0 : c0 ∈ (text.data.filter fun c => !isPySpace c).filter
      fun c => !isValidChar c :=
    List.mem_filter.mpr ⟨hc0mem, by simp [hc0inv]⟩
  have hempty : (text.data.isEmpty || text.data.all isPySpace) = false := by
    have h1 : text.data.isEmpty = false := by
      cases hdata : text.data with
      | nil =>
        rw [hdata] at hmem0
        simp at hmem0
      | cons a as => rfl
    have h2 : text.data.all isPySpace = false := by
      cases hall : text.data.all isPySpace with
      | false => rfl
      | true =>
        have := List.all_eq_true.mp hall c0 hmem0
        simp [this] at hnsp
    rw [h1, h2]
    rfl
  have hinvne : (((text.data.filter fun c => !isPySpace c).filter
      fun c => !isValidChar c).isEmpty) = false := by
    rcases hl : (text.data.filter fun c => !isPySpace c).filter
        fun c => !isValidChar c with _ | _
    · rw [hl] at hinv0
      simp at hinv0
    · rfl
  refine ⟨sortChars ((text.data.filter fun c => !isPySpace c).filter
      (fun c => !isValidChar c)).dedup, ?_, sortChars_sorted _,
      ((sortChars_perm _).nodup_iff).mpr (List.nodup_dedup _), ?_⟩
  · simp only [parse, hempty, hinvne, Bool.not_false, Bool.false_eq_true, if_false, if_true]
  · intro c
    rw [(sortChars_perm _).mem_iff, List.mem_dedup, List.mem_filter]
    constructor
    · rintro ⟨h1, h2⟩
      exact ⟨h1, by simpa using h2⟩
    · rintro ⟨h1, h2⟩
      exact ⟨h1, by simp [h2]⟩

/-- Witness for C9 at the concrete input `"1d6Xx"`. -/
theorem c9_witness :
    (∃ c ∈ "1d6Xx".data.filter fun c => !isPySpace c, isValidChar c = false) ∧
    (∃ L : List Char,
      parse "1d6Xx" = .error (.invalidChars L) ∧
      (L.Pairwise fun a b => a.toNat ≤ b.toNat) ∧
      L.Nodup ∧
      ∀ c, c ∈ L ↔
        (c ∈ "1d6Xx".data.filter (fun c => !isPySpace c) ∧ isValidChar c = false)) :=
  ⟨by decide, c9_invalid_chars_error "1d6Xx" (by decide)⟩

/-- C9 (counterexample to the claim as stated): the input `"1d6Xx"`
contains both `X` and `x`; the parser's error names that letter twice —
once per case variant — because `set()` deduplicates exactly, not
case-insensitively as the claim asserts. -/
theorem c9_counterexample_case_sensitive :
    parse "1d6Xx" = .error (.invalidChars ['X', 'x']) ∧
    'X' ∈ ['X', 'x'] ∧ 'x' ∈ ['X', 'x'] ∧ 'X'.toLower = 'x' ∧
    (['X', 'x'] : List Char).length = 2 :=
  ⟨rfl, by decide, by decide, by decide, rfl⟩

/-! ## Session-analysis lemmas -/

theorem insertInt_perm (x : Int) (l : List Int) : (insertInt x l).Perm (x :: l) := by
  induction l with
  | nil => exact List.Perm.refl _
  | cons y ys ih =>
    rw [insertInt]
    by_cases hc : x ≤ y
    · rw [if_pos hc]
    · rw [if_neg hc]
      exact (ih.cons y).trans (List.Perm.swap x y ys)

theorem sortInts_perm (l : List Int) : (sortInts l).Perm l := by
  induction l with
  | nil => exact List.Perm.refl _
  | cons x xs ih =>
    show (insertInt x (sortInts xs)).Perm (x :: xs)
    exact (insertInt_perm x (sortInts xs)).trans (ih.cons x)

theorem insertInt_pairwise (x : Int) (l : List Int)
    (h : l.Pairwise fun a b => a ≤ b) :
    (insertInt x l).Pairwise fun a b => a ≤ b := by
  induction l with
  | nil => simp [insertInt]
  | cons y ys ih =>
    rw [insertInt]
    rcases List.pairwise_cons.mp h with ⟨hy, hys⟩
    by_cases hc : x ≤ y
    · rw [if_pos hc]
      refine List.pairwise_cons.mpr ⟨?_, h⟩
      intro b hb
      rcases List.mem_cons.mp hb with rfl | hb2
      · exact hc
      · exact le_trans hc (hy b hb2)
    · rw [if_neg hc]
      refine List.pairwise_cons.mpr ⟨?_, ih hys⟩
      intro b hb
      rcases List.mem_cons.mp ((insertInt_perm x ys).mem_iff.mp hb) with rfl | hb2
      · omega
      · exact hy b hb2

theorem sortInts_sorted (l : List Int) : (sortInts l).Pairwise fun a b => a ≤ b := by
  induction l with
  | nil => simp [sortInts]
  | cons x xs ih => exact insertInt_pairwise x (sortInts xs) ih

theorem le_foldl_max (a : Int) (l : List Int) : a ≤ l.foldl max a := by
  induction l generalizing a with
  | nil => exact le_refl _
  | cons x xs ih => exact le_trans (le_max_left a x) (ih (max a x))

theorem mem_le_foldl_max (x : Int) (l : List Int) (a : Int) (hx : x ∈ l) :
    x ≤ l.foldl max a := by
  induction l generalizing a with
  | nil => simp at hx
  | cons y ys ih =>
    rcases List.mem_cons.mp hx with rfl | hx2
    · exact le_trans (le_max_right a x) (le_foldl_max _ _)
    · exact ih (max a y) hx2

theorem foldl_max_mem (a : Int) (l : List Int) : l.foldl max a = a ∨ l.foldl max a ∈ l := by
  induction l generalizing a with
  | nil => exact Or.inl rfl
  | cons x xs ih =>
    rcases ih (max a x) with h | h
    · rcases max_choice a x with hm | hm
      · exact Or.inl (by rw [List.foldl_cons, h, hm])
      · exact Or.inr (by rw [List.foldl_cons, h, hm]; exact List.mem_cons_self _ _)
    · exact Or.inr (List.mem_cons_of_mem _ h)

theorem le_listMax {x : Int} {l : List Int} (hx : x ∈ l) : x ≤ listMax l := by
  cases l with
  | nil => simp at hx
  | cons y ys =>
    rcases List.mem_cons.mp hx with rfl | hx2
    · exact le_foldl_max _ _
    · exact mem_le_foldl_max _ _ _ hx2

theorem listMax_mem {l : List Int} (hne : l ≠ []) : listMax l ∈ l := by
  cases l with
  | nil => exact absurd rfl hne
  | cons y ys =>
    rcases foldl_max_mem y ys with h | h
    · rw [listMax, h]
      exact List.mem_cons_self _ _
    · exact List.mem_cons_of_mem _ h

theorem modes_characterization (totals : List Int) (hne : totals ≠ []) (v : Int) :
    (v ∈ totals.dedup.filter fun w =>
      decide ((totals.count w : Int) =
        listMax (totals.dedup.map fun u => (totals.count u : Int)))) ↔
    (v ∈ totals ∧ ∀ w ∈ totals, totals.count w ≤ totals.count v) := by
  have hdne : totals.dedup ≠ [] := by
    rcases List.exists_mem_of_ne_nil totals hne with ⟨x, hx⟩
    intro habs
    have : x ∈ totals.dedup := List.mem_dedup.mpr hx
    rw [habs] at this
    simp at this
  have hmne : (totals.dedup.map fun u => (totals.count u : Int)) ≠ [] := by
    simpa using hdne
  rw [List.mem_filter, List.mem_dedup, decide_eq_true_eq]
  constructor
  · rintro ⟨hv, hmax⟩
    refine ⟨hv, ?_⟩
    intro w hw
    have hwm : (totals.count w : Int) ∈ totals.dedup.map fun u => (totals.count u : Int) :=
      List.mem_map.mpr ⟨w, List.mem_dedup.mpr hw, rfl⟩
    have := le_listMax hwm
    rw [← hmax] at this
    exact_mod_cast this
  · rintro ⟨hv, hcnt⟩
    refine ⟨hv, ?_⟩
    have hvm : (totals.count v : Int) ∈ totals.dedup.map fun u => (totals.count u : Int) :=
      List.mem_map.mpr ⟨v, List.mem_dedup.mpr hv, rfl⟩
    have h1 : (totals.count v : Int) ≤
        listMax (totals.dedup.map fun u => (totals.count u : Int)) := le_listMax hvm
    have h2 : listMax (totals.dedup.map fun u => (totals.count u : Int)) ≤
        (totals.count v : Int) := by
      rcases List.mem_map.mp (listMax_mem hmne) with ⟨w0, hw0, hw0eq⟩
      rw [← hw0eq]
      exact_mod_cast hcnt w0 (List.mem_dedup.mp hw0)
    omega

/-- C7: for every session with at least one roll, `analyze_session`
computes from the realized totals only: mean is the arithmetic average,
median the middle of the sorted totals (averaging the two middle values
for even counts), modes are exactly the values of maximal observed
frequency, variance is the population variance (divide by N), and each
percentile p is the sorted total at index `⌊p·(N−1)⌋`; and the session of
five d6 totals `[1, 3, 6, 3, 5]` yields mean 3.6 = 18/5, median 3.0,
modes `[3]` and range 5. -/
theorem c7_analyze_session_empirical :
    (∀ s : RollSession, s.rolls ≠ [] →
      ∃ a, analyze_session s = some a ∧
        a.mean = (s.roll_totals.sum : ℚ) / (s.roll_totals.length : ℚ) ∧
        ((sortInts s.roll_totals).Perm s.roll_totals ∧
          (sortInts s.roll_totals).Pairwise fun x y => x ≤ y) ∧
        a.median = (if s.roll_totals.length % 2 = 0 then
            (((sortInts s.roll_totals).getD (s.roll_totals.length / 2 - 1) 0 : ℚ) +
              ((sortInts s.roll_totals).getD (s.roll_totals.length / 2) 0 : ℚ)) / 2
          else ((sortInts s.roll_totals).getD (s.roll_totals.length / 2) 0 : ℚ)) ∧
        (∀ v, v ∈ a.modes ↔
          (v ∈ s.roll_totals ∧ ∀ w ∈ s.roll_totals,
            s.roll_totals.count w ≤ s.roll_totals.count v)) ∧
        a.variance =
          (s.roll_totals.map fun x => ((x : ℚ) - a.mean) ^ 2).sum /
            (s.roll_totals.length : ℚ) ∧
        a.percentiles = ([0.05, 0.25, 0.5, 0.75, 0.95] : List ℚ).map fun p =>
          (p, (sortInts s.roll_totals).getD
            (⌊p * ((s.roll_totals.length : ℚ) - 1)⌋).toNat 0)) ∧
    (∃ a, analyze_session
        ⟨⟨[⟨1, ⟨6⟩⟩], 0⟩,
          [⟨⟨[⟨1, ⟨6⟩⟩], 0⟩, [[1]], 0, 1⟩, ⟨⟨[⟨1, ⟨6⟩⟩], 0⟩, [[3]], 0, 3⟩,
            ⟨⟨[⟨1, ⟨6⟩⟩], 0⟩, [[6]], 0, 6⟩, ⟨⟨[⟨1, ⟨6⟩⟩], 0⟩, [[3]], 0, 3⟩,
            ⟨⟨[⟨1, ⟨6⟩⟩], 0⟩, [[5]], 0, 5⟩], none⟩ = some a ∧
      a.mean = 18 / 5 ∧ a.median = 3 ∧ a.modes = [3] ∧ a.range = 5) := by
  constructor
  · intro s hne
    have hemp : s.rolls.isEmpty = false := by
      cases hr : s.rolls with
      | nil => exact absurd hr hne
      | cons x xs => rfl
    have htne : s.roll_totals ≠ [] := by
      unfold RollSession.roll_totals
      cases hr : s.rolls with
      | nil => exact absurd hr hne
      | cons x xs => simp
    unfold analyze_session
    rw [hemp]
    simp only [Bool.false_eq_true, if_false]
    refine ⟨_, rfl, rfl, ⟨sortInts_perm _, sortInts_sorted _⟩, rfl, ?_, rfl, rfl⟩
    intro v
    exact modes_characterization s.roll_totals htne v
  · unfold analyze_session
    rw [show ([⟨⟨[⟨1, ⟨6⟩⟩], 0⟩, [[1]], 0, 1⟩, ⟨⟨[⟨1, ⟨6⟩⟩], 0⟩, [[3]], 0, 3⟩,
        ⟨⟨[⟨1, ⟨6⟩⟩], 0⟩, [[6]], 0, 6⟩, ⟨⟨[⟨1, ⟨6⟩⟩], 0⟩, [[3]], 0, 3⟩,
        ⟨⟨[⟨1, ⟨6⟩⟩], 0⟩, [[5]], 0, 5⟩] : List RollResult).isEmpty = false from rfl]
    simp only [Bool.false_eq_true, if_false]
    refine ⟨_, rfl, ?_, ?_, ?_, ?_⟩
    · norm_num [RollSession.roll_totals]
    · norm_num [RollSession.roll_totals, sortInts, insertInt]
    · decide
    · decide

/-- Witness for C7 at a one-roll session: the analysis exists and its
fields obey the claimed formulas. -/
theorem c7_witness :
    (RollSession.rolls ⟨⟨[⟨1, ⟨6⟩⟩], 0⟩, [⟨⟨[⟨1, ⟨6⟩⟩], 0⟩, [[2]], 0, 2⟩], none⟩ ≠ []) ∧
    ∃ a, analyze_session
      ⟨⟨[⟨1, ⟨6⟩⟩], 0⟩, [⟨⟨[⟨1, ⟨6⟩⟩], 0⟩, [[2]], 0, 2⟩], none⟩ = some a :=
  ⟨by decide, by
    rcases c7_analyze_session_empirical.1
      ⟨⟨[⟨1, ⟨6⟩⟩], 0⟩, [⟨⟨[⟨1, ⟨6⟩⟩], 0⟩, [[2]], 0, 2⟩], none⟩ (by decide) with ⟨a, ha, _⟩
    exact ⟨a, ha⟩⟩

end DiceAverage
